import Mathlib

/-!
# Desktop item model and desktop menu plugin registry

A shallow embedding of `peony-qt-desktop/desktop-item-model.cpp` and
`peony-qt-desktop/desktop-menu-plugin-manager.cpp`.

* The model object is a record; every slot (lambda connected in the
  constructor) and every member function is a function on that record.
* Signals emitted and calls made on collaborators (the icon view, the
  thumbnail manager, the file info cache) are appended to a log, in program
  order.
* Asynchronous `FileInfoJob`s are kept as a list of jobs in flight; the
  completion of a job is an event of its own.
* Loops that need not terminate carry a fuel argument and return `none` when
  the fuel is exhausted.
-/

namespace Peony

/-! ## Geometry: QPoint, QSize, QRect, QRegion -/

/-- The value a 32-bit `int` holds after an arithmetic result `a`: the result wrapped
into the range from -2147483648 to 2147483647, as two's complement hardware leaves it. -/
def int32 (a : Int) : Int := (a + 2147483648) % 4294967296 - 2147483648

/-- Integer point, as `QPoint`. -/
structure QPoint where
  x : Int
  y : Int
deriving DecidableEq, Repr

/-- Integer size, as `QSize`. -/
structure QSize where
  width : Int
  height : Int
deriving DecidableEq, Repr

/-- Default constructed `QSize()`: the invalid size (-1, -1). -/
def QSize.invalid : QSize := ⟨-1, -1⟩

/-- Rectangle stored by its inclusive corners, as `QRect` stores x1, y1, x2, y2. -/
structure QRect where
  x1 : Int
  y1 : Int
  x2 : Int
  y2 : Int
deriving DecidableEq, Repr

/-- Constructor `QRect(const QPoint &topLeft, const QSize &size)`. -/
def QRect.ofPointSize (p : QPoint) (s : QSize) : QRect :=
  ⟨p.x, p.y, int32 (p.x + s.width - 1), int32 (p.y + s.height - 1)⟩

/-- Default constructed `QRect()`: the null rectangle (0, 0, -1, -1). -/
def QRect.null : QRect := ⟨0, 0, -1, -1⟩

def QRect.x (r : QRect) : Int := r.x1

def QRect.y (r : QRect) : Int := r.y1

def QRect.left (r : QRect) : Int := r.x1

def QRect.top (r : QRect) : Int := r.y1

def QRect.bottom (r : QRect) : Int := r.y2

def QRect.topLeft (r : QRect) : QPoint := ⟨r.x1, r.y1⟩

def QRect.size (r : QRect) : QSize :=
  ⟨int32 (r.x2 - r.x1 + 1), int32 (r.y2 - r.y1 + 1)⟩

/-- Centre `QRect::center()`: the corner sums, taken in 64 bits, halved with C++ integer
division, which truncates toward zero, and cast back to `int`. -/
def QRect.center (r : QRect) : QPoint :=
  ⟨int32 (Int.tdiv (r.x1 + r.x2) 2), int32 (Int.tdiv (r.y1 + r.y2) 2)⟩

/-- Member `QRect::translate(dx, dy)`. -/
def QRect.translate (r : QRect) (dx dy : Int) : QRect :=
  ⟨int32 (r.x1 + dx), int32 (r.y1 + dy), int32 (r.x2 + dx), int32 (r.y2 + dy)⟩

/-- Member `QRect::moveTo(x, y)`: the top left corner moves, the size stays. -/
def QRect.moveTo (r : QRect) (ax ay : Int) : QRect :=
  ⟨ax, ay, int32 (r.x2 + (ax - r.x1)), int32 (r.y2 + (ay - r.y1))⟩

/-- Member `QRect::isEmpty()`. -/
def QRect.isEmpty (r : QRect) : Bool := decide (r.x1 > r.x2) || decide (r.y1 > r.y2)

/-- Point inside a non-empty rectangle (both edges inclusive). -/
def QRect.containsPoint (r : QRect) (p : QPoint) : Bool :=
  decide (r.x1 ≤ p.x) && decide (p.x ≤ r.x2) && decide (r.y1 ≤ p.y) && decide (p.y ≤ r.y2)

/-- A `QRegion` is kept as the list of the non-empty rectangles united into it. -/
abbrev QRegion := List QRect

/-- Operator `QRegion::operator+=(const QRect &)`: an empty rectangle adds nothing. -/
def QRegion.add (rg : QRegion) (r : QRect) : QRegion :=
  if r.isEmpty then rg else rg ++ [r]

/-- Member `QRegion::contains(const QPoint &)`. -/
def QRegion.contains (rg : QRegion) (p : QPoint) : Bool :=
  rg.any (fun r => r.containsPoint p)

/-- Member `QRegion::boundingRect()`; the null rectangle for the empty region. -/
def QRegion.boundingRect : QRegion → QRect
  | [] => QRect.null
  | r :: rs =>
    rs.foldl (fun b q => ⟨min b.x1 q.x1, min b.y1 q.y1, max b.x2 q.x2, max b.y2 q.y2⟩) r

/-- The loop `for (auto rect : itemRectHash.values()) notEmptyRegion += rect;`. -/
def notEmptyRegionOf (rects : List QRect) : QRegion :=
  rects.foldl QRegion.add []

/-! ## The position scan of the created-file completion -/

/-- The inner loop `while (true) { if (top < grid.height()) break; top -= grid.height(); }`.
Returns `none` when the fuel runs out. -/
def reduceTop : Nat → Int → Int → Option Int
  | 0, _, _ => none
  | fuel + 1, gridHeight, top =>
    if top < gridHeight then some top
    else reduceTop fuel gridHeight (int32 (top - gridHeight))

/-- One candidate of the scan: `next.translate(0, grid.height())`, then, when the bottom
passes the bottom of the view, the move to the next column. -/
def scanCandidate (fuel : Nat) (grid : QSize) (viewRect : QRect) (next : QRect) : Option QRect :=
  let next1 := next.translate 0 grid.height
  if next1.bottom > viewRect.bottom then
    (reduceTop fuel grid.height next1.y).map
      (fun top => next1.moveTo (int32 (next1.x + grid.width)) top)
  else some next1

/-- The loop `while (!isEmptyPos) { ... }` of both branches of the completion: the
rectangle it leaves in `next`, or `none` when the fuel runs out. -/
def scanLoop : Nat → QRegion → QSize → QRect → QRect → Option QRect
  | 0, _, _, _, _ => none
  | fuel + 1, notEmptyRegion, grid, viewRect, next =>
    match scanCandidate fuel grid viewRect next with
    | none => none
    | some next2 =>
      if notEmptyRegion.contains next2.center then
        scanLoop fuel notEmptyRegion grid viewRect next2
      else some next2

/-- The guarded scan `if (notEmptyRegion.contains(indexRect.center())) { scan }`: the
rectangle finally chosen for the new item. -/
def locate (fuel : Nat) (notEmptyRegion : QRegion) (grid : QSize) (viewRect indexRect : QRect) :
    Option QRect :=
  if notEmptyRegion.contains indexRect.center then
    scanLoop fuel notEmptyRegion grid viewRect indexRect
  else some indexRect

/-- The loops `while (margin - step > 0) margin -= step;` that align the anchor. -/
def alignMargin : Nat → Int → Int → Option Int
  | 0, _, _ => none
  | fuel + 1, step, margin =>
    if int32 (margin - step) > 0 then alignMargin fuel step (int32 (margin - step))
    else some margin

/-! ## Entries, signals, jobs and the model record -/

/-- Modelled from the spec: the class `FileInfo` (file-info.h is not part of the sources
at hand). An entry is a `std::shared_ptr<FileInfo>` named by its identifier; the file info
cache maps an identifier to one shared object, so two handles are equal exactly when
their identifiers are. The display name, flags and icon of an entry play no part in the
list operations and are left out. -/
structure FileInfo where
  uri : String
deriving DecidableEq, Repr

/-- Modelled from the spec: the static `FileInfo::fromUri(uri, addToHash)`, which gives
the entry cached for the identifier. -/
def FileInfo.fromUri (uri : String) : FileInfo := ⟨uri⟩

/-- Signals of the model and calls on its collaborators, as they are logged. -/
inductive Signal where
  | beginResetModel
  | endResetModel (rowCount : Nat)
  | beginInsertRows (first last : Int)
  | endInsertRows
  | beginRemoveRows (first last : Int)
  | endRemoveRows
  | dataChanged (row : Int)
  | requestClearIndexWidget
  | requestUpdateItemPositions
  | requestLayoutNewItem (uri : String)
  | fileCreated (uri : String)
  | refreshed
  | syncThumbnailPreferences
  | createThumbnail (uri : String)
  | releaseThumbnail (uri : String)
  | fileInfoManagerClear
  | fileInfoManagerRemove (uri : String)
  | removeItemRect (uri : String)
  | setFileMetaInfoPos (uri : String) (pos : QPoint)
  | updateItemPosByUri (uri : String) (pos : QPoint)
  | ensureItemPosByUri (uri : String)
  | singleShotUpdateItemPositions
  | startMonitor (watcher : String)
deriving DecidableEq, Repr

/-- A `FileInfoJob` started with `queryAsync()` whose `infoUpdated` has not fired yet. -/
inductive Job where
  | newFile (uri : String)
  | changed (uri : String)
  | trash
deriving DecidableEq, Repr

/-- The state of a `DesktopItemModel`, with the log of what it emitted so far. -/
structure DesktopItemModel where
  m_files : List FileInfo
  m_new_file_info_query_queue : List String
  m_info_query_queue : List String
  jobs : List Job
  enumerations : Nat
  trashMonitoring : Bool
  desktopMonitoring : Bool
  systemAppMonitoring : Bool
  andriodAppMonitoring : Bool
  log : List Signal
deriving DecidableEq, Repr

/-- The model right after its constructor: nothing listed, nothing pending, no watcher
started (a `FileWatcher` reports nothing before its `startMonitor()`, the start of the
monitoring lifecycle of the watcher interface). -/
def DesktopItemModel.init : DesktopItemModel :=
  { m_files := [], m_new_file_info_query_queue := [], m_info_query_queue := [], jobs := [],
    enumerations := 0, trashMonitoring := false, desktopMonitoring := false,
    systemAppMonitoring := false, andriodAppMonitoring := false, log := [] }

/-- What the slots read from `PeonyDesktopApplication::getIconView()` (the view class is
not part of the sources at hand, so its answers are parameters):
`getCurrentItemRects()` (keys with their rectangles, in the order `values()` lists them),
`gridSize()`, `rect()` and `getFileMetaInfoPos`. -/
structure IconView where
  itemRects : List (String × QRect)
  gridSize : QSize
  rect : QRect
  getFileMetaInfoPos : String → QPoint

/-- Append signals to the log. -/
def DesktopItemModel.emit (s : DesktopItemModel) (sigs : List Signal) : DesktopItemModel :=
  { s with log := s.log ++ sigs }

/-- The identifiers of the entries, in row order. -/
def DesktopItemModel.uris (s : DesktopItemModel) : List String :=
  s.m_files.map FileInfo.uri

/-- Member `QList::indexOf`: the first index of the value, -1 when it is absent. -/
def qIndexOf (l : List FileInfo) (a : FileInfo) : Int :=
  if a ∈ l then (l.indexOf a : Int) else -1

/-- Member `DesktopItemModel::indexFromUri`, as the row of the index it returns; -1 stands
for the invalid `QModelIndex()`. -/
def indexFromUri (files : List FileInfo) (uri : String) : Int :=
  match files.find? (fun info => info.uri == uri) with
  | some info => qIndexOf files info
  | none => -1

/-- Member `DesktopItemModel::rowCount` for the root (invalid) parent. -/
def DesktopItemModel.rowCount (s : DesktopItemModel) : Nat := s.m_files.length

/-! ## Slots of the desktop watcher -/

/-- Slot of `m_desktop_watcher`, `FileWatcher::fileCreated`. -/
def onDesktopFileCreated (s : DesktopItemModel) (uri : String) : DesktopItemModel :=
  if uri ∈ s.m_new_file_info_query_queue then s
  else
    let s1 := { s with m_new_file_info_query_queue := s.m_new_file_info_query_queue ++ [uri] }
    let info := FileInfo.fromUri uri
    let exsited := s1.m_files.any (fun file => file.uri == info.uri)
    if !exsited then { s1 with jobs := s1.jobs ++ [Job.newFile uri] } else s1

/-- The part `locate new item` of the `infoUpdated` slot: the view calls it makes, or
`none` when a loop does not come to an end within the fuel, or when
`itemRectHash.values().first()` is taken of an empty list. -/
def locateNewItem (fuel : Nat) (view : IconView) (uri : String) : Option (List Signal) :=
  let info := FileInfo.fromUri uri
  let rects := view.itemRects.map Prod.snd
  let notEmptyRegion := notEmptyRegionOf rects
  let grid := view.gridSize
  let viewRect := view.rect
  let metaInfoPos := view.getFileMetaInfoPos uri
  if metaInfoPos.x ≥ 0 then
    match rects.head? with
    | none => none
    | some first =>
      let indexRect := QRect.ofPointSize metaInfoPos first.size
      (locate fuel notEmptyRegion grid viewRect indexRect).map (fun next =>
        if notEmptyRegion.contains indexRect.center then
          [Signal.setFileMetaInfoPos info.uri next.topLeft]
        else [])
  else
    match alignMargin fuel grid.height notEmptyRegion.boundingRect.top,
          alignMargin fuel grid.width notEmptyRegion.boundingRect.left with
    | some marginTop, some marginLeft =>
      let size := match rects.head? with
        | none => QSize.invalid
        | some first => first.size
      let indexRect := QRect.ofPointSize ⟨marginLeft, marginTop⟩ size
      (locate fuel notEmptyRegion grid viewRect indexRect).map (fun next =>
        [Signal.setFileMetaInfoPos info.uri next.topLeft])
    | _, _ => none

/-- Slot `infoUpdated` of the job started by `onDesktopFileCreated`. -/
def onNewFileInfoUpdated (fuel : Nat) (view : IconView) (s : DesktopItemModel) (uri : String) :
    Option DesktopItemModel :=
  let info := FileInfo.fromUri uri
  match locateNewItem fuel view uri with
  | none => none
  | some viewCalls =>
    let s1 := s.emit viewCalls
    let count : Int := s1.m_files.length
    let s2 := s1.emit [Signal.beginInsertRows count count, Signal.createThumbnail info.uri]
    let s3 := { s2 with m_files := s2.m_files ++ [info] }
    let s4 := s3.emit [Signal.endInsertRows]
    let s5 := { s4 with
      m_new_file_info_query_queue := s4.m_new_file_info_query_queue.erase uri }
    let deferred :=
      if (view.getFileMetaInfoPos uri).x ≥ 0 then [] else [Signal.singleShotUpdateItemPositions]
    some (s5.emit (deferred ++ [Signal.requestUpdateItemPositions,
      Signal.requestLayoutNewItem info.uri, Signal.fileCreated uri]))

/-- The loop `for (auto info : m_files) { if (matches(info)) { beginRemoveRows; removeOne;
endRemoveRows; ... } }` shared by the three `fileDeleted` slots. The loop is taken to
visit the entries the list held when the loop began, in order; the course a `QList`
iterator takes after `removeOne` is the business of the container and is not modelled. -/
def removeMatching (hit : FileInfo → Bool) : List FileInfo → DesktopItemModel → DesktopItemModel
  | [], s => s
  | info :: rest, s =>
    if hit info then
      let row := qIndexOf s.m_files info
      let s1 := s.emit [Signal.beginRemoveRows row row]
      let s2 := { s1 with m_files := s1.m_files.erase info }
      let s3 := s2.emit [Signal.endRemoveRows, Signal.requestClearIndexWidget,
        Signal.requestUpdateItemPositions, Signal.fileInfoManagerRemove info.uri]
      removeMatching hit rest s3
    else removeMatching hit rest s

/-- What the removal loop logs when it runs over `rest` while `row` entries that are not
hit stand before it: one bracketed single-row removal per entry that is hit. -/
def removalLog (hit : FileInfo → Bool) : Nat → List FileInfo → List Signal
  | _, [] => []
  | row, info :: rest =>
    if hit info then
      [Signal.beginRemoveRows row row, Signal.endRemoveRows, Signal.requestClearIndexWidget,
        Signal.requestUpdateItemPositions, Signal.fileInfoManagerRemove info.uri]
        ++ removalLog hit row rest
    else removalLog hit (row + 1) rest

/-- Slot of `m_desktop_watcher`, `FileWatcher::fileDeleted`. -/
def onDesktopFileDeleted (s : DesktopItemModel) (uri : String) : DesktopItemModel :=
  let s1 := s.emit [Signal.removeItemRect uri]
  let s2 := removeMatching (fun info => info.uri == uri) s1.m_files s1
  s2.emit [Signal.singleShotUpdateItemPositions]

/-- Slot of `m_desktop_watcher`, `FileWatcher::fileChanged`: the first entry with the
identifier gets a job, and `dataChanged` is emitted at once. -/
def onDesktopFileChanged (s : DesktopItemModel) (uri : String) : DesktopItemModel :=
  match s.m_files.find? (fun info => info.uri == uri) with
  | some _ =>
    let s1 := { s with jobs := s.jobs ++ [Job.changed uri] }
    s1.emit [Signal.dataChanged (indexFromUri s1.m_files uri)]
  | none => s

/-- Slot `infoUpdated` of the job started by `onDesktopFileChanged`. -/
def onChangedInfoUpdated (s : DesktopItemModel) (uri : String) : DesktopItemModel :=
  s.emit [Signal.createThumbnail uri, Signal.dataChanged (indexFromUri s.m_files uri),
    Signal.requestClearIndexWidget]

/-! ## Slots of the application directory watchers -/

/-- Member `QString::replace(before, "")` on the characters of a string: every occurrence
of `before`, found from left to right without overlap, is taken out. `skip` counts the
characters of a found occurrence still to be dropped. -/
def removeOccurrences (before : List Char) : Nat → List Char → List Char
  | _, [] => []
  | skip + 1, _ :: cs => removeOccurrences before skip cs
  | 0, c :: cs =>
    if before ≠ [] ∧ before.isPrefixOf (c :: cs) then
      removeOccurrences before (before.length - 1) cs
    else c :: removeOccurrences before 0 cs

/-- Member `QString::endsWith`. -/
def endsWith (s t : String) : Bool := t.data.isSuffixOf s.data

/-- The text `fileName = uri; fileName.replace(app_path, "")`. -/
def appFileName (appPath uri : String) : String :=
  String.mk (removeOccurrences appPath.data 0 uri.data)

/-- The body shared by the `fileDeleted` slots of `m_system_app_watcher` and
`m_andriod_app_watcher`, for the watched directory `appPath`. -/
def onAppFileDeleted (appPath : String) (s : DesktopItemModel) (uri : String) :
    DesktopItemModel :=
  if endsWith uri ".desktop" then
    let fileName := appFileName appPath uri
    removeMatching (fun info => endsWith info.uri fileName) s.m_files s
  else s

/-- The constant `system_app_path`. -/
def system_app_path : String := "file:///usr/share/applications/"

/-- The value `andriod_app_path`, from the home location `homePath`. -/
def andriod_app_path (homePath : String) : String := homePath ++ "/.local/share/applications/"

/-- Slot of `m_system_app_watcher`, `FileWatcher::fileDeleted`. -/
def onSystemAppFileDeleted (s : DesktopItemModel) (uri : String) : DesktopItemModel :=
  onAppFileDeleted system_app_path s uri

/-- Slot of `m_andriod_app_watcher`, `FileWatcher::fileDeleted`. -/
def onAndriodAppFileDeleted (homePath : String) (s : DesktopItemModel) (uri : String) :
    DesktopItemModel :=
  onAppFileDeleted (andriod_app_path homePath) s uri

/-! ## Slots of the trash and thumbnail watchers -/

/-- Slots of `m_trash_watcher`, `fileCreated` and `fileDeleted` alike: a job on the trash
entry is started. -/
def onTrashChanged (s : DesktopItemModel) : DesktopItemModel :=
  { s with jobs := s.jobs ++ [Job.trash] }

/-- Slot `infoUpdated` of the job started by `onTrashChanged`. -/
def onTrashInfoUpdated (s : DesktopItemModel) : DesktopItemModel :=
  s.emit [Signal.dataChanged (indexFromUri s.m_files "trash:///"),
    Signal.requestClearIndexWidget]

/-- Slot of `m_thumbnail_watcher`, `FileWatcher::fileChanged`: one `dataChanged` for every
entry with the identifier. -/
def onThumbnailChanged (s : DesktopItemModel) (uri : String) : DesktopItemModel :=
  s.emit ((s.m_files.filter (fun info => info.uri == uri)).map
    (fun _ => Signal.dataChanged (indexFromUri s.m_files uri)))

/-! ## Member functions -/

/-- Member `DesktopItemModel::refresh`. -/
def refresh (s : DesktopItemModel) : DesktopItemModel :=
  let s1 := s.emit [Signal.syncThumbnailPreferences, Signal.beginResetModel,
    Signal.fileInfoManagerClear]
  let s2 := s1.emit (s1.m_files.map (fun info => Signal.releaseThumbnail info.uri))
  let s3 := { s2 with m_files := [], enumerations := s2.enumerations + 1 }
  s3.emit [Signal.endResetModel s3.rowCount]

/-- The loop `for (auto info : m_files)` inside `onEnumerateFinished` that restores or
assigns the position of every entry. -/
def placeItems (getFileMetaInfoPos : String → QPoint) (files : List FileInfo) : List Signal :=
  files.map (fun info =>
    let pos := getFileMetaInfoPos info.uri
    if pos.x ≥ 0 then Signal.updateItemPosByUri info.uri pos
    else Signal.ensureItemPosByUri info.uri)

/-- One round of the loop `for (auto info : infos)` of `onEnumerateFinished`. -/
def insertEnumerated (getFileMetaInfoPos : String → QPoint) (s : DesktopItemModel)
    (info : FileInfo) : DesktopItemModel :=
  let s1 := { s with m_info_query_queue := s.m_info_query_queue ++ [info.uri] }
  let count : Int := s1.m_files.length
  let s2 := s1.emit [Signal.beginInsertRows count count]
  let s3 := { s2 with m_files := s2.m_files ++ [info] }
  let s4 := s3.emit [Signal.endInsertRows, Signal.createThumbnail info.uri]
  if s4.m_files.getLast? = some info then
    s4.emit (placeItems getFileMetaInfoPos s4.m_files ++ [Signal.refreshed])
  else s4

/-- Member `DesktopItemModel::onEnumerateFinished`. `personal` is the entry of the home
folder (`FileInfo::fromPath` of the home location), `children` is what
`m_enumerator->getChildren(true)` returns. -/
def onEnumerateFinished (personal : FileInfo) (children : List FileInfo)
    (getFileMetaInfoPos : String → QPoint) (s : DesktopItemModel) : DesktopItemModel :=
  let s1 := s.emit [Signal.fileInfoManagerClear,
    Signal.beginRemoveRows 0 ((s.m_files.length : Int) - 1)]
  let s2 := { s1 with m_files := [] }
  let s3 := s2.emit [Signal.endRemoveRows]
  let computer := FileInfo.fromUri "computer:///"
  let trash := FileInfo.fromUri "trash:///"
  let infos := [computer, trash, personal] ++ children
  let s4 := infos.foldl (insertEnumerated getFileMetaInfoPos) s3
  let s5 := { s4 with
    trashMonitoring := true
    desktopMonitoring := true
    systemAppMonitoring := true
    andriodAppMonitoring := true
    enumerations := s4.enumerations - 1 }
  s5.emit [Signal.startMonitor "trash", Signal.startMonitor "desktop",
    Signal.startMonitor "system_app", Signal.startMonitor "andriod_app"]

/-- Member `DesktopItemModel::insertRows`. -/
def insertRows (s : DesktopItemModel) (row count : Int) : DesktopItemModel :=
  s.emit [Signal.beginInsertRows row (row + count), Signal.endInsertRows]

/-- Member `DesktopItemModel::insertRow`. -/
def insertRow (s : DesktopItemModel) (row : Int) : DesktopItemModel :=
  s.emit [Signal.beginInsertRows row row, Signal.endInsertRows]

/-- Member `DesktopItemModel::removeRows`. -/
def removeRows (s : DesktopItemModel) (row count : Int) : DesktopItemModel :=
  s.emit [Signal.beginRemoveRows row (row + count), Signal.endRemoveRows]

/-- Member `DesktopItemModel::removeRow`. -/
def removeRow (s : DesktopItemModel) (row : Int) : DesktopItemModel :=
  s.emit [Signal.beginRemoveRows row row, Signal.endRemoveRows]

/-! ## Events and runs -/

/-- What can happen to a model: a watcher fires, a job or the enumerator completes, or a
member function is called. -/
inductive Event where
  | desktopFileCreated (uri : String)
  | desktopFileDeleted (uri : String)
  | desktopFileChanged (uri : String)
  | systemAppFileDeleted (uri : String)
  | andriodAppFileDeleted (uri : String)
  | newFileInfoUpdated (uri : String) (view : IconView) (fuel : Nat)
  | changedInfoUpdated (uri : String)
  | trashFileCreated
  | trashFileDeleted
  | trashInfoUpdated
  | thumbnailFileChanged (uri : String)
  | refresh
  | enumerateFinished (personal : FileInfo) (children : List FileInfo)
      (getFileMetaInfoPos : String → QPoint)
  | insertRows (row count : Int)
  | insertRow (row : Int)
  | removeRows (row count : Int)
  | removeRow (row : Int)

/-- One event applied to the model. A completion is possible only for a job in flight;
`none` also stands for a slot that does not return. `homePath` is
`"file://" + QStandardPaths::writableLocation(QStandardPaths::HomeLocation)`. -/
def step (homePath : String) (s : DesktopItemModel) : Event → Option DesktopItemModel
  | .desktopFileCreated uri => some (onDesktopFileCreated s uri)
  | .desktopFileDeleted uri => some (onDesktopFileDeleted s uri)
  | .desktopFileChanged uri => some (onDesktopFileChanged s uri)
  | .systemAppFileDeleted uri => some (onSystemAppFileDeleted s uri)
  | .andriodAppFileDeleted uri => some (onAndriodAppFileDeleted homePath s uri)
  | .newFileInfoUpdated uri view fuel =>
    if Job.newFile uri ∈ s.jobs then
      onNewFileInfoUpdated fuel view { s with jobs := s.jobs.erase (Job.newFile uri) } uri
    else none
  | .changedInfoUpdated uri =>
    if Job.changed uri ∈ s.jobs then
      some (onChangedInfoUpdated { s with jobs := s.jobs.erase (Job.changed uri) } uri)
    else none
  | .trashFileCreated => some (onTrashChanged s)
  | .trashFileDeleted => some (onTrashChanged s)
  | .trashInfoUpdated =>
    if Job.trash ∈ s.jobs then
      some (onTrashInfoUpdated { s with jobs := s.jobs.erase Job.trash })
    else none
  | .thumbnailFileChanged uri => some (onThumbnailChanged s uri)
  | .refresh => some (refresh s)
  | .enumerateFinished personal children getFileMetaInfoPos =>
    some (onEnumerateFinished personal children getFileMetaInfoPos s)
  | .insertRows row count => some (insertRows s row count)
  | .insertRow row => some (insertRow s row)
  | .removeRows row count => some (removeRows s row count)
  | .removeRow row => some (removeRow s row)

/-- A sequence of events applied in order. -/
def run (homePath : String) : DesktopItemModel → List Event → Option DesktopItemModel
  | s, [] => some s
  | s, e :: es =>
    match step homePath s e with
    | none => none
    | some s1 => run homePath s1 es

/-- Events of a collection that is Ready and is not refreshed: a watcher fires (the
desktop watcher, an application directory watcher, the trash or the thumbnail watcher) or
a metadata job completes. -/
def Event.isReadyEvent : Event → Bool
  | .desktopFileCreated _ => true
  | .desktopFileDeleted _ => true
  | .desktopFileChanged _ => true
  | .systemAppFileDeleted _ => true
  | .andriodAppFileDeleted _ => true
  | .newFileInfoUpdated _ _ _ => true
  | .changedInfoUpdated _ => true
  | .trashFileCreated => true
  | .trashFileDeleted => true
  | .trashInfoUpdated => true
  | .thumbnailFileChanged _ => true
  | _ => false

/-- The four members `insertRows`, `insertRow`, `removeRows`, `removeRow`. -/
def Event.isRowCall : Event → Bool
  | .insertRows _ _ => true
  | .insertRow _ => true
  | .removeRows _ _ => true
  | .removeRow _ => true
  | _ => false

/-! ## An observer of the row notifications -/

/-- An observer that keeps a row count from the notifications alone: the range announced
by a `begin` is applied when the matching `end` arrives. -/
structure Observer where
  rows : Int
  pendingInsert : Option (Int × Int)
  pendingRemove : Option (Int × Int)
deriving DecidableEq, Repr

/-- The observer takes one signal: an insert of rows first..last adds last - first + 1, a
remove takes as many away, a reset sets the count to the length of the sequence. -/
def Observer.notify (o : Observer) : Signal → Observer
  | .beginInsertRows first last => { o with pendingInsert := some (first, last) }
  | .endInsertRows =>
    match o.pendingInsert with
    | some (first, last) => { o with rows := o.rows + (last - first + 1), pendingInsert := none }
    | none => o
  | .beginRemoveRows first last => { o with pendingRemove := some (first, last) }
  | .endRemoveRows =>
    match o.pendingRemove with
    | some (first, last) => { o with rows := o.rows - (last - first + 1), pendingRemove := none }
    | none => o
  | .endResetModel rowCount => { o with rows := rowCount }
  | _ => o

/-- The observer after a whole log, starting from an empty model. -/
def observe (log : List Signal) : Observer :=
  log.foldl Observer.notify ⟨0, none, none⟩

/-- The observer `o` after the further signals `sigs`. -/
def observeFrom (o : Observer) (sigs : List Signal) : Observer :=
  sigs.foldl Observer.notify o

/-! ## Notions used in the statements -/

/-- The identifiers of the new-file jobs in flight. -/
def newFileJobs : List Job → List String
  | [] => []
  | Job.newFile uri :: rest => uri :: newFileJobs rest
  | _ :: rest => newFileJobs rest

/-- The pending set and the jobs in flight agree: no identifier has two new-file jobs,
and every new-file job in flight is for an identifier that is pending and not yet in the
entry sequence. -/
def JobsConsistent (s : DesktopItemModel) : Prop :=
  (newFileJobs s.jobs).Nodup
  ∧ ∀ u ∈ newFileJobs s.jobs, u ∈ s.m_new_file_info_query_queue ∧ u ∉ s.uris

/-- The occupied region covers the whole viewport: every point of the view rectangle lies
in the region. -/
def coversViewport (notEmptyRegion : QRegion) (viewRect : QRect) : Prop :=
  ∀ p : QPoint, viewRect.containsPoint p = true → notEmptyRegion.contains p = true

/-! ## Concrete desktops and runs -/

/-- A Ready desktop with one file: the three roots and `a.txt`, nothing pending. -/
def readyDesktop : DesktopItemModel :=
  { DesktopItemModel.init with
    m_files := [⟨"computer:///"⟩, ⟨"trash:///"⟩, ⟨"file:///home/u"⟩,
      ⟨"file:///home/u/Desktop/a.txt"⟩]
    trashMonitoring := true
    desktopMonitoring := true
    systemAppMonitoring := true
    andriodAppMonitoring := true }

/-- An icon view showing the four entries of `readyDesktop` in the first column of a grid
of 100 by 100 cells, 800 by 600 in all, with no position persisted. -/
def readyView : IconView :=
  { itemRects := [("computer:///", ⟨0, 0, 99, 99⟩), ("trash:///", ⟨0, 100, 99, 199⟩),
      ("file:///home/u", ⟨0, 200, 99, 299⟩), ("file:///home/u/Desktop/a.txt", ⟨0, 300, 99, 399⟩)]
    gridSize := ⟨100, 100⟩
    rect := ⟨0, 0, 799, 599⟩
    getFileMetaInfoPos := fun _ => ⟨-1, -1⟩ }

/-- A run on `readyDesktop`: `b.txt` is created (twice before its metadata arrives), then
changed; `a.txt` is deleted; an application is uninstalled. -/
def readyEvents : List Event :=
  [Event.desktopFileCreated "file:///home/u/Desktop/b.txt",
   Event.desktopFileCreated "file:///home/u/Desktop/b.txt",
   Event.newFileInfoUpdated "file:///home/u/Desktop/b.txt" readyView 20,
   Event.desktopFileChanged "file:///home/u/Desktop/b.txt",
   Event.changedInfoUpdated "file:///home/u/Desktop/b.txt",
   Event.desktopFileDeleted "file:///home/u/Desktop/a.txt",
   Event.systemAppFileDeleted "file:///usr/share/applications/x.desktop"]

/-- A first load followed by life on the desktop: refresh, the enumeration of a desktop
holding `a.txt`, then `b.txt` is created and `a.txt` deleted. -/
def loadEvents : List Event :=
  [Event.refresh,
   Event.enumerateFinished ⟨"file:///home/u"⟩ [⟨"file:///home/u/Desktop/a.txt"⟩]
     (fun _ => ⟨-1, -1⟩),
   Event.desktopFileCreated "file:///home/u/Desktop/b.txt",
   Event.newFileInfoUpdated "file:///home/u/Desktop/b.txt" readyView 20,
   Event.desktopFileDeleted "file:///home/u/Desktop/a.txt"]

/-- A first load of an empty desktop, then `b.txt` is created and, before its metadata
has arrived, the desktop is refreshed and enumerated again, now with `b.txt` on it. -/
def reloadEvents : List Event :=
  [Event.refresh,
   Event.enumerateFinished ⟨"file:///home/u"⟩ [] (fun _ => ⟨-1, -1⟩),
   Event.desktopFileCreated "file:///home/u/Desktop/b.txt",
   Event.refresh,
   Event.enumerateFinished ⟨"file:///home/u"⟩ [⟨"file:///home/u/Desktop/b.txt"⟩]
     (fun _ => ⟨-1, -1⟩)]

/-- Modelled from the spec: the interface `MenuPluginInterface` (its header is not part
of the sources at hand). A loaded menu plugin is the object behind the pointer, `handle`,
and the identifier it reports through `name()`. -/
structure MenuPluginInterface where
  handle : Nat
  name : String
deriving DecidableEq, Repr

/-- What `pluginLoader.instance()` and the `dynamic_cast` give for one file of the plugin
directory. -/
inductive PluginObject where
  | null
  | other
  | menu (piface : MenuPluginInterface)
deriving DecidableEq, Repr

/-- The map `QMap<QString, MenuPluginInterface*>`: pairs in ascending key order, one pair
per key. -/
abbrev PluginMap := List (String × MenuPluginInterface)

/-- Member `QMap::value(key)`; `none` is the null pointer returned for a missing key. -/
def PluginMap.value : PluginMap → String → Option MenuPluginInterface
  | [], _ => none
  | (k, v) :: rest, key => if key = k then some v else PluginMap.value rest key

/-- The UTF-16 code units a `QString` holds for one character: the code itself below
U+10000, a pair of surrogates from there on. -/
def utf16Units (c : Char) : List Nat :=
  if c.toNat < 65536 then [c.toNat]
  else [55296 + (c.toNat - 65536) / 1024, 56320 + (c.toNat - 65536) % 1024]

/-- The order of `QString::operator<` on the code units of two strings: the first
differing unit decides by its value, a proper initial part comes first. -/
def unitsLess : List Nat → List Nat → Bool
  | _, [] => false
  | [], _ :: _ => true
  | a :: as, b :: bs =>
    if a < b then true
    else if b < a then false
    else unitsLess as bs

/-- Operator `QString::operator<`, the key order of the map. -/
def qStringLess (a b : String) : Bool :=
  unitsLess (a.data.map utf16Units).flatten (b.data.map utf16Units).flatten

/-- Member `QMap::insert(key, value)`: the value of an existing key is replaced. -/
def PluginMap.insert : PluginMap → String → MenuPluginInterface → PluginMap
  | [], key, value => [(key, value)]
  | (k, v) :: rest, key, value =>
    if key = k then (key, value) :: rest
    else if qStringLess key k then (key, value) :: (k, v) :: rest
    else (k, v) :: PluginMap.insert rest key value

/-- The registry object: `m_map` and the flag `m_is_loaded`. -/
structure DesktopMenuPluginManager where
  m_map : PluginMap
  m_is_loaded : Bool
deriving DecidableEq, Repr

/-- The registry a constructor starts from. -/
def DesktopMenuPluginManager.empty : DesktopMenuPluginManager := ⟨[], false⟩

/-- One round of the second loop of `loadAsync` (the body run by `QtConcurrent::run`). -/
def loadOne (mgr : DesktopMenuPluginManager) : PluginObject → DesktopMenuPluginManager
  | .null => mgr
  | .other => mgr
  | .menu piface =>
    let m_map :=
      if (mgr.m_map.value piface.name).isNone then mgr.m_map.insert piface.name piface
      else mgr.m_map
    { m_map := m_map, m_is_loaded := true }

/-- The second loop of `loadAsync` over the files of the plugin directory, in scan order. -/
def loadPass (mgr : DesktopMenuPluginManager) (files : List PluginObject) :
    DesktopMenuPluginManager :=
  files.foldl loadOne mgr

/-- Member `DesktopMenuPluginManager::loadAsync`, as far as the registry goes: its first
loop only looks for a style plugin and sets the application style; its second loop, handed
to `QtConcurrent::run`, is `loadPass` over the same directory. -/
def loadAsync (mgr : DesktopMenuPluginManager) (files : List PluginObject) :
    DesktopMenuPluginManager :=
  loadPass mgr files

/-- Member `DesktopMenuPluginManager::getPluginIds`. -/
def getPluginIds (mgr : DesktopMenuPluginManager) : List String :=
  mgr.m_map.map Prod.fst

/-- Member `DesktopMenuPluginManager::getPlugin`. -/
def getPlugin (mgr : DesktopMenuPluginManager) (pluginId : String) : Option MenuPluginInterface :=
  mgr.m_map.value pluginId

/-- Member `DesktopMenuPluginManager::getPlugins`. -/
def getPlugins (mgr : DesktopMenuPluginManager) : List MenuPluginInterface :=
  mgr.m_map.map Prod.snd

/-- The menu plugins among the loaded objects, in scan order. -/
def menuPlugins : List PluginObject → List MenuPluginInterface
  | [] => []
  | .menu piface :: rest => piface :: menuPlugins rest
  | _ :: rest => menuPlugins rest

/-! ## Drops -/

/-- The enumeration `Qt::DropAction`. -/
inductive DropAction where
  | CopyAction
  | MoveAction
  | LinkAction
  | ActionMask
  | TargetMoveAction
  | IgnoreAction
deriving DecidableEq, Repr

/-- A file operation handed to `FileOperationManager::startOperation`. -/
inductive FileOperation where
  | trash (srcUris : List String)
  | move (srcUris : List String) (destDirUri : String)
  | copy (srcUris : List String) (destDirUri : String)
deriving DecidableEq, Repr

/-- What a call of `dropMimeData` comes to: the value returned and the file operations
started, in order. -/
structure DropOutcome where
  accepted : Bool
  started : List FileOperation
deriving DecidableEq, Repr

/-- Member `QString::contains(const QString &)` on the characters of two strings. -/
def containsChars (needle : List Char) : List Char → Bool
  | [] => needle.isPrefixOf []
  | c :: cs => needle.isPrefixOf (c :: cs) || containsChars needle cs

/-- Member `QString::contains`. -/
def qContains (s t : String) : Bool := containsChars t.data s.data

/-- The destination of a drop, `destDirUri`. `parent` is the row of a valid parent index
of this model, `none` for the invalid index; the result `none` is the null string, which
`parent.data(UriRole).toString()` gives when the model has no data for the index.
`desktopLocation` is `QStandardPaths::writableLocation(QStandardPaths::DesktopLocation)`. -/
def destDirUri (s : DesktopItemModel) (desktopLocation : String) : Option Nat → Option String
  | some row => (s.m_files[row]?).map FileInfo.uri
  | none => some ("file://" ++ desktopLocation)

/-- Member `DesktopItemModel::dropMimeData`. `isDir` answers
`FileInfo::fromUri(uri)->isDir()`, `baseResult` is what
`QAbstractItemModel::dropMimeData` returns for the same arguments, `urls` is
`data->urls()` as strings. -/
def dropMimeData (s : DesktopItemModel) (desktopLocation : String) (isDir : String → Bool)
    (baseResult : Bool) (urls : List String) (action : DropAction) (parent : Option Nat) :
    DropOutcome :=
  match destDirUri s desktopLocation parent with
  | none => ⟨baseResult, []⟩
  | some dest =>
    if !isDir dest then ⟨false, []⟩
    else if urls.isEmpty then ⟨false, []⟩
    else
      let srcUris := urls
      if dest ∈ srcUris then ⟨true, []⟩
      else
        let b_trash_item := srcUris.any (fun path => qContains path "trash:///")
        if b_trash_item && dest != "trash///" then ⟨false, []⟩
        else if dest = "trash:///" then ⟨baseResult, [FileOperation.trash srcUris]⟩
        else
          match action with
          | DropAction.MoveAction => ⟨baseResult, [FileOperation.move srcUris dest]⟩
          | DropAction.CopyAction => ⟨baseResult, [FileOperation.copy srcUris dest]⟩
          | _ => ⟨baseResult, []⟩

/-! ## Loading and monitoring -/

/-- The collection is Loading: a `refresh()` has been called and its enumeration has not
finished yet. -/
def DesktopItemModel.isLoading (s : DesktopItemModel) : Bool := decide (0 < s.enumerations)

/-- Which of the four watchers are monitoring: desktop, trash, system applications, local
applications. -/
def DesktopItemModel.monitoring (s : DesktopItemModel) : Bool × Bool × Bool × Bool :=
  (s.desktopMonitoring, s.trashMonitoring, s.systemAppMonitoring, s.andriodAppMonitoring)

/-- The event is a completion of the enumerator, a call of `onEnumerateFinished`. -/
def Event.isEnumerateFinished : Event → Bool
  | .enumerateFinished _ _ _ => true
  | _ => false

/-! ## The scan order of the position scan -/

/-- A bound on coordinates and cell sizes, 2 to the 28, below which no addition of the
scan leaves the range of a 32-bit `int`. -/
def smallCoordinate : Int := 268435456

/-- All four corners of the rectangle lie between `-bound` and `bound`. -/
def QRect.withinBound (r : QRect) (bound : Int) : Bool :=
  decide (-bound ≤ r.x1) && decide (r.x1 ≤ bound) && decide (-bound ≤ r.y1)
    && decide (r.y1 ≤ bound) && decide (-bound ≤ r.x2) && decide (r.x2 ≤ bound)
    && decide (-bound ≤ r.y2) && decide (r.y2 ≤ bound)

/-- The row a wrap puts the candidate in: what the loop `reduceTop` leaves in `top` for a
positive cell height. A `top` below the cell height stays, another one is reduced to its
remainder. -/
def wrapTop (gridHeight top : Int) : Int :=
  if top < gridHeight then top else top % gridHeight

/-- The successor of a candidate in the scan order: one cell height down, and past the
bottom of the view on to the next column, x advanced by the cell width (in the 32-bit
arithmetic of the source). -/
def nextCandidate (grid : QSize) (viewRect next : QRect) : QRect :=
  let next1 := next.translate 0 grid.height
  if next1.bottom > viewRect.bottom then
    next1.moveTo (int32 (next1.x + grid.width)) (wrapTop grid.height next1.y)
  else next1

/-- The scan order: the anchor itself, then candidate after candidate. -/
def candidateAt (grid : QSize) (viewRect indexRect : QRect) : Nat → QRect
  | 0 => indexRect
  | k + 1 => nextCandidate grid viewRect (candidateAt grid viewRect indexRect k)

/-! ## Enumeration -/

theorem insertEnumerated_m_files (g : String → QPoint) (s : DesktopItemModel) (info : FileInfo) :
    (insertEnumerated g s info).m_files = s.m_files ++ [info] := by
  unfold insertEnumerated
  simp only [DesktopItemModel.emit]
  split <;> rfl

theorem foldl_insertEnumerated_m_files (g : String → QPoint) (infos : List FileInfo)
    (s : DesktopItemModel) :
    (infos.foldl (insertEnumerated g) s).m_files = s.m_files ++ infos := by
  induction infos generalizing s with
  | nil => simp
  | cons info rest ih =>
    rw [List.foldl_cons, ih, insertEnumerated_m_files]
    simp

/-- Claim C2: whatever the sequence held before, after `onEnumerateFinished` the entry
sequence is the computer root, the trash root and the home folder, in that order,
followed by the enumerated children in enumeration order; its length is 3 + |cs|, and for
an empty desktop folder it is exactly the three roots. -/
theorem onEnumerateFinished_m_files (personal : FileInfo) (cs : List FileInfo)
    (g : String → QPoint) (s : DesktopItemModel) :
    (onEnumerateFinished personal cs g s).m_files
        = [FileInfo.fromUri "computer:///", FileInfo.fromUri "trash:///", personal] ++ cs
      ∧ (onEnumerateFinished personal cs g s).m_files.length = 3 + cs.length
      ∧ (onEnumerateFinished personal [] g s).m_files
        = [FileInfo.fromUri "computer:///", FileInfo.fromUri "trash:///", personal] := by
  have h : ∀ cs, (onEnumerateFinished personal cs g s).m_files
        = [FileInfo.fromUri "computer:///", FileInfo.fromUri "trash:///", personal] ++ cs := by
    intro cs
    unfold onEnumerateFinished
    simp only [DesktopItemModel.emit]
    rw [foldl_insertEnumerated_m_files]
    simp
  refine ⟨h cs, ?_, ?_⟩
  · rw [h]; simp; omega
  · rw [h]; simp

/-! ## The created slot of the desktop watcher -/

/-- Claim C5: a desktop created event for an identifier that is already in the pending
set returns the model unchanged: no job is started, the entry sequence, the pending set
and the log stay as they were. -/
theorem created_pending_noop (s : DesktopItemModel) (uri : String)
    (h : uri ∈ s.m_new_file_info_query_queue) :
    onDesktopFileCreated s uri = s := by
  unfold onDesktopFileCreated
  simp [h]

theorem created_pending_noop_witness :
    "file:///home/u/Desktop/a.txt" ∈
        ({ DesktopItemModel.init with
            m_new_file_info_query_queue := ["file:///home/u/Desktop/a.txt"],
            jobs := [Job.newFile "file:///home/u/Desktop/a.txt"] }).m_new_file_info_query_queue
    ∧ onDesktopFileCreated
        { DesktopItemModel.init with
            m_new_file_info_query_queue := ["file:///home/u/Desktop/a.txt"],
            jobs := [Job.newFile "file:///home/u/Desktop/a.txt"] }
        "file:///home/u/Desktop/a.txt"
      = { DesktopItemModel.init with
            m_new_file_info_query_queue := ["file:///home/u/Desktop/a.txt"],
            jobs := [Job.newFile "file:///home/u/Desktop/a.txt"] } :=
  ⟨by decide, created_pending_noop _ _ (by decide)⟩

/-! ## The removal loop and the deleted slot of the desktop watcher -/

theorem qIndexOf_append_cons (kept rest : List FileInfo) (info : FileInfo) (h : info ∉ kept) :
    qIndexOf (kept ++ info :: rest) info = kept.length := by
  unfold qIndexOf
  simp [List.indexOf_append_of_not_mem h]

theorem removeMatching_eq (hit : FileInfo → Bool) (rest : List FileInfo) :
    ∀ (kept : List FileInfo) (s : DesktopItemModel), s.m_files = kept ++ rest →
      (∀ x ∈ kept, hit x = false) →
      removeMatching hit rest s =
        { s with m_files := kept ++ rest.filter (fun x => !hit x),
                 log := s.log ++ removalLog hit kept.length rest } := by
  induction rest with
  | nil =>
    intro kept s hs _
    simp [removeMatching, removalLog, ← hs]
  | cons info rest ih =>
    intro kept s hs hk
    by_cases hh : hit info = true
    · have hnot : info ∉ kept := fun hm => by simp [hk info hm] at hh
      rw [removeMatching, if_pos hh]
      rw [ih kept _ (by simp [DesktopItemModel.emit, hs, List.erase_append_right _ hnot]) hk]
      simp [DesktopItemModel.emit, removalLog, hh, hs, qIndexOf_append_cons _ _ _ hnot]
    · have hf : hit info = false := by simpa using hh
      rw [removeMatching, if_neg hh]
      rw [ih (kept ++ [info]) s (by simp [hs]) (by
        intro x hx
        rcases List.mem_append.mp hx with h | h
        · exact hk x h
        · simp at h; rw [h]; exact hf)]
      simp [removalLog, hf]

theorem removalLog_no_hit (hit : FileInfo → Bool) (l : List FileInfo)
    (h : ∀ x ∈ l, hit x = false) (row : Nat) : removalLog hit row l = [] := by
  induction l generalizing row with
  | nil => rfl
  | cons a l ih =>
    have ha : hit a = false := h a (by simp)
    simp only [removalLog, ha]
    exact ih (fun x hx => h x (by simp [hx])) _

theorem removalLog_append (hit : FileInfo → Bool) (pre rest : List FileInfo)
    (h : ∀ x ∈ pre, hit x = false) (row : Nat) :
    removalLog hit row (pre ++ rest) = removalLog hit (row + pre.length) rest := by
  induction pre generalizing row with
  | nil => simp
  | cons a l ih =>
    have ha : hit a = false := h a (by simp)
    show removalLog hit row (a :: (l ++ rest)) = _
    rw [removalLog, if_neg (by simp [ha])]
    rw [ih (fun x hx => h x (by simp [hx])) (row + 1)]
    have hlen : row + 1 + l.length = row + (a :: l).length := by
      rw [List.length_cons]; omega
    rw [hlen]

theorem filter_no_hit (hit : FileInfo → Bool) (l : List FileInfo)
    (h : ∀ x ∈ l, hit x = false) : l.filter (fun x => !hit x) = l := by
  apply List.filter_eq_self.mpr
  intro x hx
  simp [h x hx]

/-- Claim C3: on a sequence with pairwise distinct identifiers the desktop deleted event
for `u` leaves the sequence with the entry for `u` taken out and the others in their
order. When `u` is present the length drops by one and the slot emits exactly one
bracketed remove notification, for the single row `u` stood in; when `u` is absent the
sequence is unchanged and no remove notification is emitted. -/
theorem desktop_deleted_removes_entry (s : DesktopItemModel) (u : String)
    (hd : s.uris.Nodup) :
    (onDesktopFileDeleted s u).m_files = s.m_files.filter (fun info => info.uri != u)
    ∧ (u ∈ s.uris →
        (onDesktopFileDeleted s u).m_files.length + 1 = s.m_files.length
        ∧ ∃ row : Nat, s.m_files[row]? = some ⟨u⟩
          ∧ (onDesktopFileDeleted s u).log = s.log ++
              [Signal.removeItemRect u, Signal.beginRemoveRows row row, Signal.endRemoveRows,
               Signal.requestClearIndexWidget, Signal.requestUpdateItemPositions,
               Signal.fileInfoManagerRemove u, Signal.singleShotUpdateItemPositions])
    ∧ (u ∉ s.uris →
        (onDesktopFileDeleted s u).m_files = s.m_files
        ∧ (onDesktopFileDeleted s u).log = s.log ++
              [Signal.removeItemRect u, Signal.singleShotUpdateItemPositions]) := by
  have key := removeMatching_eq (fun info => info.uri == u)
    (s.emit [Signal.removeItemRect u]).m_files []
    (s.emit [Signal.removeItemRect u]) (by simp) (by simp)
  have hm : (onDesktopFileDeleted s u).m_files
      = s.m_files.filter (fun info => !(info.uri == u)) := by
    simp only [onDesktopFileDeleted]
    rw [key]; simp [DesktopItemModel.emit]
  have hl : (onDesktopFileDeleted s u).log = s.log ++ [Signal.removeItemRect u]
      ++ removalLog (fun info => info.uri == u) 0 s.m_files
      ++ [Signal.singleShotUpdateItemPositions] := by
    simp only [onDesktopFileDeleted]
    rw [key]; simp [DesktopItemModel.emit]
  refine ⟨by rw [hm]; rfl, ?_, ?_⟩
  · intro hu
    have hmem : (⟨u⟩ : FileInfo) ∈ s.m_files := by
      simp only [DesktopItemModel.uris, List.mem_map] at hu
      obtain ⟨a, ha, rfl⟩ := hu
      exact ha
    obtain ⟨pre, post, hsplit⟩ := List.append_of_mem hmem
    have hnd : (pre.map FileInfo.uri ++ u :: post.map FileInfo.uri).Nodup := by
      have := hd
      simpa [DesktopItemModel.uris, hsplit] using this
    have hpre : ∀ x ∈ pre, ((fun info : FileInfo => info.uri == u) x) = false := by
      intro x hx
      have h1 := (List.nodup_append.mp hnd).2.2
      have : x.uri ≠ u := fun he => h1 (List.mem_map_of_mem _ hx) (by simp [he])
      simpa using this
    have hpost : ∀ x ∈ post, ((fun info : FileInfo => info.uri == u) x) = false := by
      intro x hx
      have h1 := (List.nodup_cons.mp (List.nodup_append.mp hnd).2.1).1
      have : x.uri ≠ u := fun he => h1 (by rw [← he]; exact List.mem_map_of_mem _ hx)
      simpa using this
    have hfilter : s.m_files.filter (fun info => !(info.uri == u)) = pre ++ post := by
      rw [hsplit, List.filter_append, List.filter_cons]
      simp only [beq_self_eq_true, Bool.not_true]
      rw [filter_no_hit _ pre hpre, filter_no_hit _ post hpost]
      simp
    refine ⟨by rw [hm, hfilter, hsplit]; simp; omega, pre.length, by rw [hsplit, List.getElem?_append_right (Nat.le_refl _)]; simp, ?_⟩
    rw [hl, hsplit, removalLog_append _ _ _ hpre]
    simp [removalLog, removalLog_no_hit _ post hpost]
  · intro hu
    have hno : ∀ x ∈ s.m_files, ((fun info : FileInfo => info.uri == u) x) = false := by
      intro x hx
      have : x.uri ≠ u := fun he => hu (by
        simp only [DesktopItemModel.uris, List.mem_map]; exact ⟨x, hx, he⟩)
      simpa using this
    refine ⟨by rw [hm, filter_no_hit _ _ hno], ?_⟩
    rw [hl, removalLog_no_hit _ _ hno]; simp

theorem desktop_deleted_removes_entry_witness :
    readyDesktop.uris.Nodup
    ∧ (onDesktopFileDeleted readyDesktop "file:///home/u/Desktop/a.txt").m_files
        = [⟨"computer:///"⟩, ⟨"trash:///"⟩, ⟨"file:///home/u"⟩] :=
  ⟨by decide,
   (desktop_deleted_removes_entry readyDesktop "file:///home/u/Desktop/a.txt"
      (by decide)).1.trans (by decide)⟩

/-! ## Distinct identifiers under watcher events -/

theorem newFileJobs_append (a b : List Job) :
    newFileJobs (a ++ b) = newFileJobs a ++ newFileJobs b := by
  induction a with
  | nil => rfl
  | cons j a ih => cases j <;> simp [newFileJobs, ih]

theorem mem_newFileJobs (jobs : List Job) (u : String) :
    u ∈ newFileJobs jobs ↔ Job.newFile u ∈ jobs := by
  induction jobs with
  | nil => simp [newFileJobs]
  | cons j jobs ih => cases j <;> simp [newFileJobs, ih]

theorem newFileJobs_erase_newFile (jobs : List Job) (u : String) :
    newFileJobs (jobs.erase (Job.newFile u)) = (newFileJobs jobs).erase u := by
  induction jobs with
  | nil => rfl
  | cons j jobs ih =>
    cases j with
    | newFile v =>
      by_cases h : v = u
      · subst h; simp [newFileJobs]
      · have h1 : Job.newFile v ≠ Job.newFile u := fun he => h (by injection he)
        rw [List.erase_cons_tail (by simpa using h1)]
        simp only [newFileJobs]
        rw [List.erase_cons_tail (by simpa using h), ih]
    | changed v =>
      rw [List.erase_cons_tail (by simp)]
      simp [newFileJobs, ih]
    | trash =>
      rw [List.erase_cons_tail (by simp)]
      simp [newFileJobs, ih]

theorem newFileJobs_erase_other (jobs : List Job) (j : Job) (hj : ∀ u, j ≠ Job.newFile u) :
    newFileJobs (jobs.erase j) = newFileJobs jobs := by
  induction jobs with
  | nil => rfl
  | cons k jobs ih =>
    by_cases h : k = j
    · subst h
      rw [List.erase_cons_head]
      cases k with
      | newFile v => exact absurd rfl (hj v)
      | changed v => rfl
      | trash => rfl
    · rw [List.erase_cons_tail (by simpa using h)]
      cases k <;> simp [newFileJobs, ih]

theorem removeMatching_all (hit : FileInfo → Bool) (s : DesktopItemModel) :
    removeMatching hit s.m_files s =
      { s with m_files := s.m_files.filter (fun x => !hit x),
               log := s.log ++ removalLog hit 0 s.m_files } := by
  have h := removeMatching_eq hit s.m_files [] s (by simp) (by simp)
  simpa using h

theorem onNewFileInfoUpdated_fields (fuel : Nat) (view : IconView) (s t : DesktopItemModel)
    (uri : String) (h : onNewFileInfoUpdated fuel view s uri = some t) :
    t.m_files = s.m_files ++ [⟨uri⟩]
    ∧ t.m_new_file_info_query_queue = s.m_new_file_info_query_queue.erase uri
    ∧ t.jobs = s.jobs := by
  unfold onNewFileInfoUpdated at h
  cases hl : locateNewItem fuel view uri with
  | none => simp [hl] at h
  | some calls =>
    simp only [hl, DesktopItemModel.emit, Option.some.injEq] at h
    subst h
    simp [FileInfo.fromUri]

theorem jobsConsistent_sublist (s : DesktopItemModel) (files : List FileInfo) (log : List Signal)
    (hs : files.Sublist s.m_files) (h : s.uris.Nodup ∧ JobsConsistent s) :
    ({ s with m_files := files, log := log }).uris.Nodup
    ∧ JobsConsistent { s with m_files := files, log := log } := by
  obtain ⟨hn, hj, hp⟩ := h
  have hsub : (files.map FileInfo.uri).Sublist (s.m_files.map FileInfo.uri) := hs.map _
  refine ⟨hn.sublist hsub, hj, ?_⟩
  intro u hu
  exact ⟨(hp u hu).1, fun hm => (hp u hu).2 (hsub.subset hm)⟩

theorem step_ready_inv (homePath : String) (s t : DesktopItemModel) (e : Event)
    (he : e.isReadyEvent = true) (hstep : step homePath s e = some t)
    (h : s.uris.Nodup ∧ JobsConsistent s) : t.uris.Nodup ∧ JobsConsistent t := by
  cases e with
  | desktopFileCreated uri =>
    simp only [step, Option.some.injEq] at hstep
    subst hstep
    unfold onDesktopFileCreated
    by_cases hq : uri ∈ s.m_new_file_info_query_queue
    · simpa [hq] using h
    · obtain ⟨hn, hj, hp⟩ := h
      simp only [hq, if_false]
      by_cases hex : (s.m_files.any fun file => file.uri == (FileInfo.fromUri uri).uri) = true
      · simp only [hex, Bool.not_true, Bool.false_eq_true, if_false]
        refine ⟨hn, hj, ?_⟩
        intro u hu
        exact ⟨List.mem_append_left _ (hp u hu).1, (hp u hu).2⟩
      · simp only [hex, Bool.not_false, if_true]
        have hnotin : uri ∉ s.uris := by
          intro hm
          apply hex
          simp only [DesktopItemModel.uris, List.mem_map] at hm
          obtain ⟨a, ha, hau⟩ := hm
          simp only [List.any_eq_true]
          exact ⟨a, ha, by simp [FileInfo.fromUri, hau]⟩
        have hnj : uri ∉ newFileJobs s.jobs := fun hm => hq (hp uri hm).1
        refine ⟨hn, ?_, ?_⟩
        · simp only [newFileJobs_append, newFileJobs]
          exact List.Nodup.append hj (by simp) (by simpa using hnj)
        · intro u hu
          simp only [newFileJobs_append, newFileJobs, List.mem_append, List.mem_singleton] at hu
          rcases hu with hu | hu
          · exact ⟨List.mem_append_left _ (hp u hu).1, (hp u hu).2⟩
          · subst hu
            exact ⟨by simp, hnotin⟩
  | desktopFileDeleted uri =>
    simp only [step, Option.some.injEq] at hstep
    subst hstep
    simp only [onDesktopFileDeleted]
    have hk := removeMatching_all (fun info => info.uri == uri) (s.emit [Signal.removeItemRect uri])
    rw [hk]
    exact jobsConsistent_sublist s _ _ (List.filter_sublist _) h
  | desktopFileChanged uri =>
    simp only [step, Option.some.injEq] at hstep
    subst hstep
    obtain ⟨hn, hj, hp⟩ := h
    unfold onDesktopFileChanged
    cases s.m_files.find? (fun info => info.uri == uri) with
    | none => exact ⟨hn, hj, hp⟩
    | some a =>
      refine ⟨hn, ?_, ?_⟩
      · simpa [DesktopItemModel.emit, newFileJobs_append, newFileJobs] using hj
      · simpa [DesktopItemModel.emit, newFileJobs_append, newFileJobs, JobsConsistent,
          DesktopItemModel.uris] using hp
  | systemAppFileDeleted uri =>
    simp only [step, Option.some.injEq] at hstep
    subst hstep
    simp only [onSystemAppFileDeleted, onAppFileDeleted]
    split
    · rw [removeMatching_all]
      exact jobsConsistent_sublist s _ _ (List.filter_sublist _) h
    · exact h
  | andriodAppFileDeleted uri =>
    simp only [step, Option.some.injEq] at hstep
    subst hstep
    simp only [onAndriodAppFileDeleted, onAppFileDeleted]
    split
    · rw [removeMatching_all]
      exact jobsConsistent_sublist s _ _ (List.filter_sublist _) h
    · exact h
  | newFileInfoUpdated uri view fuel =>
    obtain ⟨hn, hj, hp⟩ := h
    simp only [step] at hstep
    by_cases hin : Job.newFile uri ∈ s.jobs
    · simp only [hin, if_true] at hstep
      obtain ⟨hf, hq, hjobs⟩ := onNewFileInfoUpdated_fields _ _ _ _ _ hstep
      simp only at hf hq hjobs
      have hmem : uri ∈ newFileJobs s.jobs := (mem_newFileJobs _ _).mpr hin
      have hnotin : uri ∉ s.uris := (hp uri hmem).2
      have hj2 : newFileJobs t.jobs = (newFileJobs s.jobs).erase uri := by
        rw [hjobs, newFileJobs_erase_newFile]
      refine ⟨?_, ?_, ?_⟩
      · simp only [DesktopItemModel.uris, hf, List.map_append, List.map_cons, List.map_nil]
        exact List.Nodup.append hn (by simp) (by simpa [DesktopItemModel.uris] using hnotin)
      · rw [hj2]; exact hj.erase _
      · intro u hu
        rw [hj2] at hu
        have hne : u ≠ uri := fun hx => by
          subst hx
          exact (List.Nodup.not_mem_erase hj) hu
        have hu2 : u ∈ newFileJobs s.jobs := List.mem_of_mem_erase hu
        refine ⟨?_, ?_⟩
        · rw [hq]; exact (List.mem_erase_of_ne hne).mpr (hp u hu2).1
        · simp only [DesktopItemModel.uris, hf, List.map_append, List.map_cons, List.map_nil,
            List.mem_append, List.mem_singleton]
          rintro (hx | hx)
          · exact (hp u hu2).2 hx
          · exact hne hx
    · simp [hin] at hstep
  | changedInfoUpdated uri =>
    obtain ⟨hn, hj, hp⟩ := h
    simp only [step] at hstep
    by_cases hin : Job.changed uri ∈ s.jobs
    · simp only [hin, if_true, Option.some.injEq] at hstep
      subst hstep
      have hj2 : newFileJobs (s.jobs.erase (Job.changed uri)) = newFileJobs s.jobs :=
        newFileJobs_erase_other _ _ (by intro u; simp)
      refine ⟨hn, ?_, ?_⟩
      · simpa [onChangedInfoUpdated, DesktopItemModel.emit, hj2] using hj
      · simpa [onChangedInfoUpdated, DesktopItemModel.emit, hj2, JobsConsistent,
          DesktopItemModel.uris] using hp
    · simp [hin] at hstep
  | trashFileCreated =>
    simp only [step, Option.some.injEq] at hstep
    subst hstep
    obtain ⟨hn, hj, hp⟩ := h
    refine ⟨hn, ?_, ?_⟩
    · simpa [onTrashChanged, newFileJobs_append, newFileJobs] using hj
    · simpa [onTrashChanged, newFileJobs_append, newFileJobs, JobsConsistent,
        DesktopItemModel.uris] using hp
  | trashFileDeleted =>
    simp only [step, Option.some.injEq] at hstep
    subst hstep
    obtain ⟨hn, hj, hp⟩ := h
    refine ⟨hn, ?_, ?_⟩
    · simpa [onTrashChanged, newFileJobs_append, newFileJobs] using hj
    · simpa [onTrashChanged, newFileJobs_append, newFileJobs, JobsConsistent,
        DesktopItemModel.uris] using hp
  | trashInfoUpdated =>
    obtain ⟨hn, hj, hp⟩ := h
    simp only [step] at hstep
    by_cases hin : Job.trash ∈ s.jobs
    · simp only [hin, if_true, Option.some.injEq] at hstep
      subst hstep
      have hj2 : newFileJobs (s.jobs.erase Job.trash) = newFileJobs s.jobs :=
        newFileJobs_erase_other _ _ (by intro u; simp)
      refine ⟨hn, ?_, ?_⟩
      · simpa [onTrashInfoUpdated, DesktopItemModel.emit, hj2] using hj
      · simpa [onTrashInfoUpdated, DesktopItemModel.emit, hj2, JobsConsistent,
          DesktopItemModel.uris] using hp
    · simp [hin] at hstep
  | thumbnailFileChanged uri =>
    simp only [step, Option.some.injEq] at hstep
    subst hstep
    exact h
  | refresh => simp [Event.isReadyEvent] at he
  | enumerateFinished personal children g => simp [Event.isReadyEvent] at he
  | insertRows row count => simp [Event.isReadyEvent] at he
  | insertRow row => simp [Event.isReadyEvent] at he
  | removeRows row count => simp [Event.isReadyEvent] at he
  | removeRow row => simp [Event.isReadyEvent] at he

theorem run_ready_inv (homePath : String) (evs : List Event) :
    ∀ (s t : DesktopItemModel), (∀ e ∈ evs, e.isReadyEvent = true) →
      run homePath s evs = some t → s.uris.Nodup ∧ JobsConsistent s →
      t.uris.Nodup ∧ JobsConsistent t := by
  induction evs with
  | nil =>
    intro s t _ hrun h
    simp only [run, Option.some.injEq] at hrun
    subst hrun; exact h
  | cons e evs ih =>
    intro s t hev hrun h
    simp only [run] at hrun
    cases hs : step homePath s e with
    | none => simp [hs] at hrun
    | some s1 =>
      simp only [hs] at hrun
      exact ih s1 t (fun e he => hev e (by simp [he])) hrun
        (step_ready_inv homePath s s1 e (hev e (by simp)) hs h)

/-- Claim C1, as amended: from a Ready collection whose identifiers are pairwise distinct
and whose new-file jobs in flight agree with it (no identifier has two such jobs, and each
is for an identifier that is pending and not in the entry sequence; so in particular when
no job is in flight), after every finite sequence of desktop created, deleted and changed
events, application directory deleted events and job completions (trash and thumbnail
events may come among them, a refresh may not) the entry sequence holds no identifier
twice. -/
theorem ready_events_keep_identifiers_distinct (homePath : String) (s t : DesktopItemModel)
    (evs : List Event) (hdistinct : s.uris.Nodup) (hjobs : JobsConsistent s)
    (hev : ∀ e ∈ evs, e.isReadyEvent = true) (hrun : run homePath s evs = some t) :
    t.uris.Nodup :=
  (run_ready_inv homePath evs s t hev hrun ⟨hdistinct, hjobs⟩).1

theorem ready_events_keep_identifiers_distinct_witness :
    (onDesktopFileCreated readyDesktop "file:///home/u/Desktop/b.txt").uris.Nodup
    ∧ (onDesktopFileCreated readyDesktop "file:///home/u/Desktop/b.txt").jobs
        = [Job.newFile "file:///home/u/Desktop/b.txt"]
    ∧ JobsConsistent (onDesktopFileCreated readyDesktop "file:///home/u/Desktop/b.txt")
    ∧ readyEvents.tail.all Event.isReadyEvent = true
    ∧ (run "file:///home/u"
          (onDesktopFileCreated readyDesktop "file:///home/u/Desktop/b.txt")
          readyEvents.tail).isSome = true
    ∧ ((run "file:///home/u"
          (onDesktopFileCreated readyDesktop "file:///home/u/Desktop/b.txt")
          readyEvents.tail).getD DesktopItemModel.init).uris.Nodup :=
  ⟨by decide, by decide, by unfold JobsConsistent; decide, by decide, by decide,
   ready_events_keep_identifiers_distinct "file:///home/u"
     (onDesktopFileCreated readyDesktop "file:///home/u/Desktop/b.txt") _ readyEvents.tail
     (by decide) (by unfold JobsConsistent; decide) (by decide) (by decide)⟩

/-- Counterexample to claim C1 as stated: after a first load `b.txt` is created and its
metadata job is still in flight when the desktop is refreshed; the enumeration lists
`b.txt`, so the collection is Ready with pairwise distinct identifiers. The completion of
the job, one event with no refresh in between, then appends `b.txt` a second time. -/
theorem stale_job_lists_identifier_twice :
    (run "file:///home/u" DesktopItemModel.init reloadEvents).map
        (fun s => (s.uris, s.isLoading, s.jobs))
      = some (["computer:///", "trash:///", "file:///home/u", "file:///home/u/Desktop/b.txt"],
          false, [Job.newFile "file:///home/u/Desktop/b.txt"])
    ∧ Event.isReadyEvent
        (Event.newFileInfoUpdated "file:///home/u/Desktop/b.txt" readyView 20) = true
    ∧ (run "file:///home/u" DesktopItemModel.init
          (reloadEvents ++
            [Event.newFileInfoUpdated "file:///home/u/Desktop/b.txt" readyView 20])).map
        (fun s => s.uris)
      = some ["computer:///", "trash:///", "file:///home/u", "file:///home/u/Desktop/b.txt",
          "file:///home/u/Desktop/b.txt"] := by
  decide

/-! ## The changed slot of the desktop watcher -/

theorem indexOf_map_uri (files : List FileInfo) (u : String) :
    files.indexOf (⟨u⟩ : FileInfo) = (files.map FileInfo.uri).indexOf u := by
  induction files with
  | nil => rfl
  | cons a files ih =>
    cases a with
    | mk v =>
      by_cases hv : v = u
      · subst hv; simp
      · have h1 : (⟨v⟩ : FileInfo) ≠ ⟨u⟩ := fun he => hv (by injection he)
        rw [List.map_cons, List.indexOf_cons_ne _ h1, List.indexOf_cons_ne _ hv, ih]

theorem indexFromUri_of_mem (files : List FileInfo) (u : String)
    (h : u ∈ files.map FileInfo.uri) :
    files[(files.map FileInfo.uri).indexOf u]? = some ⟨u⟩
      ∧ indexFromUri files u = ((files.map FileInfo.uri).indexOf u : Nat)
      ∧ files.find? (fun info => info.uri == u) = some ⟨u⟩ := by
  have hmem : (⟨u⟩ : FileInfo) ∈ files := by
    simp only [List.mem_map] at h
    obtain ⟨a, ha, rfl⟩ := h
    exact ha
  have hfind : files.find? (fun info => info.uri == u) = some ⟨u⟩ := by
    cases hf : files.find? (fun info => info.uri == u) with
    | none =>
      rw [List.find?_eq_none] at hf
      exact absurd (by simp) (hf _ hmem)
    | some a =>
      have := List.find?_some hf
      simp only [beq_iff_eq] at this
      cases a
      simp_all
  rw [← indexOf_map_uri]
  refine ⟨List.getElem?_indexOf hmem, ?_, hfind⟩
  simp [indexFromUri, hfind, qIndexOf, hmem]

/-- Claim C4, as amended: for an identifier `u` present in the sequence, the desktop changed
event for `u` together with the completion of the job it starts emits exactly two
`dataChanged` notifications, both for the row of `u` (one at once, one when the metadata
has arrived), and leaves the entry sequence as it was. -/
theorem changed_event_emits_two_notifications (homePath : String) (s : DesktopItemModel)
    (u : String) (h : u ∈ s.uris) :
    s.m_files[s.uris.indexOf u]? = some ⟨u⟩
    ∧ (step homePath (onDesktopFileChanged s u) (Event.changedInfoUpdated u)).map
          (fun t => (t.m_files, t.log))
        = some (s.m_files, s.log ++ [Signal.dataChanged (s.uris.indexOf u : Nat),
            Signal.createThumbnail u, Signal.dataChanged (s.uris.indexOf u : Nat),
            Signal.requestClearIndexWidget]) := by
  obtain ⟨hrow, hidx, hfind⟩ := indexFromUri_of_mem s.m_files u h
  refine ⟨hrow, ?_⟩
  simp [step, onDesktopFileChanged, hfind, DesktopItemModel.emit, onChangedInfoUpdated, hidx,
    DesktopItemModel.uris]

theorem changed_event_emits_two_notifications_witness :
    "file:///home/u/Desktop/a.txt" ∈ readyDesktop.uris
    ∧ readyDesktop.m_files[readyDesktop.uris.indexOf "file:///home/u/Desktop/a.txt"]?
        = some ⟨"file:///home/u/Desktop/a.txt"⟩
    ∧ (step "file:///home/u" (onDesktopFileChanged readyDesktop "file:///home/u/Desktop/a.txt")
            (Event.changedInfoUpdated "file:///home/u/Desktop/a.txt")).map
          (fun t => (t.m_files, t.log))
        = some (readyDesktop.m_files, readyDesktop.log ++
            [Signal.dataChanged (readyDesktop.uris.indexOf "file:///home/u/Desktop/a.txt" : Nat),
             Signal.createThumbnail "file:///home/u/Desktop/a.txt",
             Signal.dataChanged (readyDesktop.uris.indexOf "file:///home/u/Desktop/a.txt" : Nat),
             Signal.requestClearIndexWidget]) :=
  ⟨by decide, changed_event_emits_two_notifications "file:///home/u" readyDesktop
    "file:///home/u/Desktop/a.txt" (by decide)⟩

/-- Counterexample to claim C4 as stated: on `readyDesktop` the changed event for `a.txt`
followed by the completion of its job logs `dataChanged` for row 3 twice, not once. -/
theorem changed_event_one_notification_fails :
    (run "file:///home/u" readyDesktop
        [Event.desktopFileChanged "file:///home/u/Desktop/a.txt",
         Event.changedInfoUpdated "file:///home/u/Desktop/a.txt"]).map
      (fun t => (t.log, t.log.count (Signal.dataChanged 3)))
    = some ([Signal.dataChanged 3, Signal.createThumbnail "file:///home/u/Desktop/a.txt",
        Signal.dataChanged 3, Signal.requestClearIndexWidget], 2) := by
  decide

/-! ## The refreshed signal of the enumeration -/

theorem count_refreshed_placeItems (g : String → QPoint) (files : List FileInfo) :
    (placeItems g files).count Signal.refreshed = 0 := by
  induction files with
  | nil => rfl
  | cons a files ih =>
    simp only [placeItems, List.map_cons] at ih ⊢
    by_cases h : (g a.uri).x ≥ 0
    · simp only [h, if_true]; rw [List.count_cons_of_ne (by simp)]; exact ih
    · simp only [h, if_false]; rw [List.count_cons_of_ne (by simp)]; exact ih

theorem insertEnumerated_log (g : String → QPoint) (s : DesktopItemModel) (info : FileInfo) :
    (insertEnumerated g s info).log = s.log ++
      ([Signal.beginInsertRows s.m_files.length s.m_files.length, Signal.endInsertRows,
        Signal.createThumbnail info.uri] ++ placeItems g (s.m_files ++ [info])
        ++ [Signal.refreshed]) := by
  unfold insertEnumerated
  simp [DesktopItemModel.emit]

theorem insertEnumerated_refreshed (g : String → QPoint) (s : DesktopItemModel)
    (info : FileInfo) :
    (insertEnumerated g s info).log.count Signal.refreshed
      = s.log.count Signal.refreshed + 1 := by
  rw [insertEnumerated_log]
  simp [List.count_append, count_refreshed_placeItems, List.count_cons]

theorem foldl_insertEnumerated_refreshed (g : String → QPoint) (infos : List FileInfo)
    (s : DesktopItemModel) :
    (infos.foldl (insertEnumerated g) s).log.count Signal.refreshed
      = s.log.count Signal.refreshed + infos.length := by
  induction infos generalizing s with
  | nil => simp
  | cons info rest ih =>
    rw [List.foldl_cons, ih, insertEnumerated_refreshed, List.length_cons]
    omega

theorem onEnumerateFinished_refreshed_count (personal : FileInfo) (cs : List FileInfo)
    (g : String → QPoint) (s : DesktopItemModel) :
    (onEnumerateFinished personal cs g s).log.count Signal.refreshed
      = s.log.count Signal.refreshed + (3 + cs.length) := by
  unfold onEnumerateFinished
  simp only [DesktopItemModel.emit]
  rw [List.count_append, foldl_insertEnumerated_refreshed]
  simp [List.count_append, List.count_cons]
  omega

/-- Claim C6 fails on the code: for an empty desktop folder `onEnumerateFinished` emits
`refreshed` three times, not once, and the first time when only the computer root has
been inserted and placed. The test `m_files.last() == info` holds after every insertion,
so the placing loop and the signal run once per entry. -/
theorem onEnumerateFinished_empty_desktop_log :
    (onEnumerateFinished ⟨"file:///home/u"⟩ [] (fun _ => ⟨-1, -1⟩) DesktopItemModel.init).log
      = [Signal.fileInfoManagerClear, Signal.beginRemoveRows 0 (-1), Signal.endRemoveRows,
         Signal.beginInsertRows 0 0, Signal.endInsertRows, Signal.createThumbnail "computer:///",
         Signal.ensureItemPosByUri "computer:///",
         Signal.refreshed,
         Signal.beginInsertRows 1 1, Signal.endInsertRows, Signal.createThumbnail "trash:///",
         Signal.ensureItemPosByUri "computer:///", Signal.ensureItemPosByUri "trash:///",
         Signal.refreshed,
         Signal.beginInsertRows 2 2, Signal.endInsertRows,
         Signal.createThumbnail "file:///home/u",
         Signal.ensureItemPosByUri "computer:///", Signal.ensureItemPosByUri "trash:///",
         Signal.ensureItemPosByUri "file:///home/u",
         Signal.refreshed,
         Signal.startMonitor "trash", Signal.startMonitor "desktop",
         Signal.startMonitor "system_app", Signal.startMonitor "andriod_app"]
    ∧ (onEnumerateFinished ⟨"file:///home/u"⟩ [] (fun _ => ⟨-1, -1⟩)
        DesktopItemModel.init).log.count Signal.refreshed = 3 := by
  decide

/-! ## The observer of the row notifications -/

theorem observe_append (a b : List Signal) :
    observe (a ++ b) = observeFrom (observe a) b := by
  simp [observe, observeFrom, List.foldl_append]

theorem observeFrom_append (o : Observer) (a b : List Signal) :
    observeFrom o (a ++ b) = observeFrom (observeFrom o a) b := by
  simp [observeFrom, List.foldl_append]

theorem observeFrom_inert (o : Observer) (sigs : List Signal)
    (h : ∀ sig ∈ sigs, ∀ o : Observer, o.notify sig = o) : observeFrom o sigs = o := by
  induction sigs with
  | nil => rfl
  | cons sig sigs ih =>
    simp only [observeFrom, List.foldl_cons]
    rw [h sig (by simp)]
    exact ih (fun x hx => h x (by simp [hx]))

theorem observeFrom_removalLog (hit : FileInfo → Bool) (rest : List FileInfo) :
    ∀ (row : Nat) (r : Int),
      observeFrom ⟨r + rest.length, none, none⟩ (removalLog hit row rest)
        = ⟨r + (rest.filter (fun x => !hit x)).length, none, none⟩ := by
  induction rest with
  | nil => intro row r; rfl
  | cons a rest ih =>
    intro row r
    by_cases h : hit a = true
    · simp only [removalLog, h, if_true, List.filter_cons, Bool.not_true, Bool.false_eq_true,
        if_false]
      rw [observeFrom_append]
      have : observeFrom ⟨r + ((a :: rest).length : Nat), none, none⟩
          [Signal.beginRemoveRows row row, Signal.endRemoveRows, Signal.requestClearIndexWidget,
           Signal.requestUpdateItemPositions, Signal.fileInfoManagerRemove a.uri]
          = ⟨r + rest.length, none, none⟩ := by
        simp only [observeFrom, List.foldl_cons, List.foldl_nil, Observer.notify,
          List.length_cons]
        congr 1
        push_cast
        omega
      rw [this]
      exact ih row r
    · have hf : hit a = false := by simpa using h
      simp only [removalLog, hf, Bool.false_eq_true, if_false, List.filter_cons, Bool.not_false,
        if_true, List.length_cons]
      have := ih (row + 1) (r + 1)
      have e1 : r + ((rest.length + 1 : Nat) : Int) = r + 1 + rest.length := by
        push_cast; omega
      have e2 : r + (((rest.filter (fun x => !hit x)).length + 1 : Nat) : Int)
          = r + 1 + (rest.filter (fun x => !hit x)).length := by
        push_cast; omega
      rw [e1, e2]
      exact this

theorem removeMatching_observed (hit : FileInfo → Bool) (s : DesktopItemModel)
    (h : observe s.log = ⟨s.m_files.length, none, none⟩) :
    observe (removeMatching hit s.m_files s).log
      = ⟨(removeMatching hit s.m_files s).m_files.length, none, none⟩ := by
  rw [removeMatching_all]
  simp only
  rw [observe_append, h]
  have := observeFrom_removalLog hit s.m_files 0 0
  simpa using this

theorem locateNewItem_inert (fuel : Nat) (view : IconView) (uri : String) (calls : List Signal)
    (h : locateNewItem fuel view uri = some calls) :
    ∀ sig ∈ calls, ∀ o : Observer, o.notify sig = o := by
  unfold locateNewItem at h
  simp only at h
  split at h
  · split at h
    · simp at h
    · rw [Option.map_eq_some'] at h
      obtain ⟨next, _, rfl⟩ := h
      intro sig hsig o
      split at hsig
      · simp only [List.mem_singleton] at hsig; subst hsig; rfl
      · simp at hsig
  · split at h
    · rw [Option.map_eq_some'] at h
      obtain ⟨next, _, rfl⟩ := h
      intro sig hsig o
      simp only [List.mem_singleton] at hsig; subst hsig; rfl
    · simp at h

theorem insertEnumerated_observed (g : String → QPoint) (s : DesktopItemModel) (info : FileInfo)
    (h : observe s.log = ⟨s.m_files.length, none, none⟩) :
    observe (insertEnumerated g s info).log
      = ⟨(insertEnumerated g s info).m_files.length, none, none⟩ := by
  rw [insertEnumerated_log, insertEnumerated_m_files, observe_append, h]
  rw [observeFrom_append, observeFrom_append]
  have h1 : observeFrom ⟨s.m_files.length, none, none⟩
      [Signal.beginInsertRows s.m_files.length s.m_files.length, Signal.endInsertRows,
        Signal.createThumbnail info.uri] = ⟨(s.m_files ++ [info]).length, none, none⟩ := by
    simp only [observeFrom, List.foldl_cons, List.foldl_nil, Observer.notify]
    congr 1
    simp
  rw [h1, observeFrom_inert _ (placeItems g (s.m_files ++ [info]))]
  · rfl
  · intro sig hsig o
    simp only [placeItems, List.mem_map] at hsig
    obtain ⟨a, _, rfl⟩ := hsig
    split <;> rfl

theorem foldl_insertEnumerated_observed (g : String → QPoint) (infos : List FileInfo) :
    ∀ s : DesktopItemModel, observe s.log = ⟨s.m_files.length, none, none⟩ →
      observe (infos.foldl (insertEnumerated g) s).log
        = ⟨(infos.foldl (insertEnumerated g) s).m_files.length, none, none⟩ := by
  induction infos with
  | nil => intro s h; exact h
  | cons info rest ih =>
    intro s h
    rw [List.foldl_cons]
    exact ih _ (insertEnumerated_observed g s info h)

theorem step_observed (homePath : String) (s t : DesktopItemModel) (e : Event)
    (he : e.isRowCall = false) (hstep : step homePath s e = some t)
    (h : observe s.log = ⟨s.m_files.length, none, none⟩) :
    observe t.log = ⟨t.m_files.length, none, none⟩ := by
  cases e with
  | desktopFileCreated uri =>
    simp only [step, Option.some.injEq] at hstep
    subst hstep
    unfold onDesktopFileCreated
    split
    · exact h
    · simp only
      split <;> exact h
  | desktopFileDeleted uri =>
    simp only [step, Option.some.injEq] at hstep
    subst hstep
    simp only [onDesktopFileDeleted]
    have h1 : observe (s.emit [Signal.removeItemRect uri]).log
        = ⟨(s.emit [Signal.removeItemRect uri]).m_files.length, none, none⟩ := by
      simp only [DesktopItemModel.emit]
      rw [observe_append, h]; rfl
    have h2 := removeMatching_observed (fun info => info.uri == uri) _ h1
    simp only [DesktopItemModel.emit] at h2 ⊢
    rw [observe_append, h2]; rfl
  | desktopFileChanged uri =>
    simp only [step, Option.some.injEq] at hstep
    subst hstep
    unfold onDesktopFileChanged
    split
    · simp only [DesktopItemModel.emit]
      rw [observe_append, h]; rfl
    · exact h
  | systemAppFileDeleted uri =>
    simp only [step, Option.some.injEq] at hstep
    subst hstep
    simp only [onSystemAppFileDeleted, onAppFileDeleted]
    split
    · exact removeMatching_observed _ s h
    · exact h
  | andriodAppFileDeleted uri =>
    simp only [step, Option.some.injEq] at hstep
    subst hstep
    simp only [onAndriodAppFileDeleted, onAppFileDeleted]
    split
    · exact removeMatching_observed _ s h
    · exact h
  | newFileInfoUpdated uri view fuel =>
    simp only [step] at hstep
    split at hstep
    · unfold onNewFileInfoUpdated at hstep
      cases hl : locateNewItem fuel view uri with
      | none => simp [hl] at hstep
      | some calls =>
        simp only [hl, DesktopItemModel.emit, Option.some.injEq] at hstep
        subst hstep
        simp only
        rw [observe_append, observe_append, observe_append, observe_append, h,
          observeFrom_inert _ calls (locateNewItem_inert _ _ _ _ hl)]
        have h1 : observeFrom (observeFrom ⟨s.m_files.length, none, none⟩
            [Signal.beginInsertRows s.m_files.length s.m_files.length,
             Signal.createThumbnail (FileInfo.fromUri uri).uri]) [Signal.endInsertRows]
            = ⟨(s.m_files ++ [FileInfo.fromUri uri]).length, none, none⟩ := by
          simp only [observeFrom, List.foldl_cons, List.foldl_nil, Observer.notify]
          congr 1
          simp
        rw [h1]
        apply observeFrom_inert
        intro sig hsig o
        simp only [List.mem_append, List.mem_cons, List.mem_singleton, List.not_mem_nil,
          or_false] at hsig
        rcases hsig with hsig | hsig | hsig | hsig
        · split at hsig
          · simp at hsig
          · simp only [List.mem_singleton] at hsig; subst hsig; rfl
        · subst hsig; rfl
        · subst hsig; rfl
        · subst hsig; rfl
    · simp at hstep
  | changedInfoUpdated uri =>
    simp only [step] at hstep
    split at hstep
    · simp only [Option.some.injEq] at hstep
      subst hstep
      simp only [onChangedInfoUpdated, DesktopItemModel.emit]
      rw [observe_append, h]; rfl
    · simp at hstep
  | trashFileCreated =>
    simp only [step, Option.some.injEq] at hstep
    subst hstep; exact h
  | trashFileDeleted =>
    simp only [step, Option.some.injEq] at hstep
    subst hstep; exact h
  | trashInfoUpdated =>
    simp only [step] at hstep
    split at hstep
    · simp only [Option.some.injEq] at hstep
      subst hstep
      simp only [onTrashInfoUpdated, DesktopItemModel.emit]
      rw [observe_append, h]; rfl
    · simp at hstep
  | thumbnailFileChanged uri =>
    simp only [step, Option.some.injEq] at hstep
    subst hstep
    simp only [onThumbnailChanged, DesktopItemModel.emit]
    rw [observe_append, h, observeFrom_inert]
    intro sig hsig o
    simp only [List.mem_map] at hsig
    obtain ⟨a, _, rfl⟩ := hsig
    rfl
  | refresh =>
    simp only [step, Option.some.injEq] at hstep
    subst hstep
    simp only [refresh, DesktopItemModel.emit, DesktopItemModel.rowCount]
    rw [observe_append, observe_append, observe_append, h,
      observeFrom_inert _ [Signal.syncThumbnailPreferences, Signal.beginResetModel,
        Signal.fileInfoManagerClear],
      observeFrom_inert _ (s.m_files.map (fun info => Signal.releaseThumbnail info.uri))]
    · rfl
    · intro sig hsig o
      simp only [List.mem_map] at hsig
      obtain ⟨a, _, rfl⟩ := hsig
      rfl
    · intro sig hsig o
      simp only [List.mem_cons, List.mem_singleton, List.not_mem_nil, or_false] at hsig
      rcases hsig with hsig | hsig | hsig <;> (subst hsig; rfl)
  | enumerateFinished personal children g =>
    simp only [step, Option.some.injEq] at hstep
    subst hstep
    simp only [onEnumerateFinished]
    have h3 : observe ({ (s.emit [Signal.fileInfoManagerClear,
          Signal.beginRemoveRows 0 ((s.m_files.length : Int) - 1)]) with
          m_files := [] }.emit [Signal.endRemoveRows]).log
        = ⟨(({ (s.emit [Signal.fileInfoManagerClear,
          Signal.beginRemoveRows 0 ((s.m_files.length : Int) - 1)]) with
          m_files := [] }.emit [Signal.endRemoveRows]).m_files.length : Nat), none, none⟩ := by
      simp only [DesktopItemModel.emit]
      rw [observe_append, observe_append, h]
      simp only [observeFrom, List.foldl_cons, List.foldl_nil, Observer.notify]
      congr 1
      simp
    have h4 := foldl_insertEnumerated_observed g
      ([FileInfo.fromUri "computer:///", FileInfo.fromUri "trash:///", personal] ++ children)
      _ h3
    simp only [DesktopItemModel.emit] at h4 ⊢
    rw [observe_append, h4]
    rfl
  | insertRows row count => simp [Event.isRowCall] at he
  | insertRow row => simp [Event.isRowCall] at he
  | removeRows row count => simp [Event.isRowCall] at he
  | removeRow row => simp [Event.isRowCall] at he

theorem run_observed (homePath : String) (evs : List Event) :
    ∀ (s t : DesktopItemModel), observe s.log = ⟨s.m_files.length, none, none⟩ →
      (∀ e ∈ evs, e.isRowCall = false) → run homePath s evs = some t →
      observe t.log = ⟨t.m_files.length, none, none⟩ := by
  induction evs with
  | nil =>
    intro s t h _ hrun
    simp only [run, Option.some.injEq] at hrun
    subst hrun; exact h
  | cons e evs ih =>
    intro s t h hev hrun
    simp only [run] at hrun
    cases hs : step homePath s e with
    | none => simp [hs] at hrun
    | some s1 =>
      simp only [hs] at hrun
      exact ih s1 t (step_observed homePath s s1 e (hev e (by simp)) hs h)
        (fun e he => hev e (by simp [he])) hrun

/-- Claim C7, as amended: an observer that keeps a row count from the notifications alone
agrees with the length of the entry sequence after every sequence of `refresh`,
`onEnumerateFinished`, watcher slots and job completions, and no range is left announced
without its end. The four members `insertRows`, `insertRow`, `removeRows` and
`removeRow` are left out: they notify without touching the sequence. -/
theorem observer_count_matches_length (homePath : String) (s t : DesktopItemModel)
    (evs : List Event) (hstart : observe s.log = ⟨s.m_files.length, none, none⟩)
    (hev : ∀ e ∈ evs, e.isRowCall = false) (hrun : run homePath s evs = some t) :
    observe t.log = ⟨t.m_files.length, none, none⟩ :=
  run_observed homePath evs s t hstart hev hrun

theorem observer_count_matches_length_witness :
    observe DesktopItemModel.init.log = ⟨DesktopItemModel.init.m_files.length, none, none⟩
    ∧ loadEvents.all (fun e => !e.isRowCall) = true
    ∧ (run "file:///home/u" DesktopItemModel.init loadEvents).isSome = true
    ∧ observe ((run "file:///home/u" DesktopItemModel.init loadEvents).getD
          DesktopItemModel.init).log
        = ⟨((run "file:///home/u" DesktopItemModel.init loadEvents).getD
            DesktopItemModel.init).m_files.length, none, none⟩ :=
  ⟨by decide, by decide, by decide,
   observer_count_matches_length "file:///home/u" DesktopItemModel.init _ loadEvents
     (by decide) (by decide) (by decide)⟩

/-- Counterexample to claim C7 as stated: a call of `insertRow(0)` on the empty model
announces one inserted row while the entry sequence stays empty, so the observer counts 1
for a sequence of length 0. -/
theorem insertRow_breaks_observer_count :
    observe DesktopItemModel.init.log = ⟨DesktopItemModel.init.m_files.length, none, none⟩
    ∧ (run "file:///home/u" DesktopItemModel.init [Event.insertRow 0]).map
        (fun t => ((observe t.log).rows, t.m_files.length)) = some (1, 0) := by
  decide

/-! ## The deleted slots of the application directory watchers -/

theorem value_insert (m : PluginMap) (key : String) (value : MenuPluginInterface)
    (k2 : String) :
    (m.insert key value).value k2 = if k2 = key then some value else m.value k2 := by
  induction m with
  | nil => simp [PluginMap.insert, PluginMap.value]
  | cons kv rest ih =>
    obtain ⟨k, v⟩ := kv
    simp only [PluginMap.insert]
    by_cases h1 : key = k
    · subst h1
      simp only [if_true, PluginMap.value]
      by_cases h2 : k2 = key <;> simp [h2]
    · simp only [h1, if_false]
      by_cases h3 : qStringLess key k = true
      · simp only [h3, if_true, PluginMap.value]
      · simp only [h3, Bool.false_eq_true, if_false, PluginMap.value, ih]
        by_cases h2 : k2 = k
        · subst h2
          have : ¬ k2 = key := fun he => h1 he.symm
          simp [this]
        · simp [h2]

theorem mem_keys_iff (m : PluginMap) (key : String) :
    key ∈ m.map Prod.fst ↔ (m.value key).isSome = true := by
  induction m with
  | nil => simp [PluginMap.value]
  | cons kv rest ih =>
    obtain ⟨k, v⟩ := kv
    simp only [List.map_cons, List.mem_cons, PluginMap.value]
    by_cases h : key = k
    · simp [h]
    · simp [h, ih]

theorem mem_keys_insert (m : PluginMap) (key : String) (value : MenuPluginInterface)
    (k2 : String) :
    k2 ∈ (m.insert key value).map Prod.fst ↔ k2 = key ∨ k2 ∈ m.map Prod.fst := by
  rw [mem_keys_iff, mem_keys_iff, value_insert]
  by_cases h : k2 = key <;> simp [h]

theorem keys_insert_nodup (m : PluginMap) (key : String) (value : MenuPluginInterface)
    (hn : (m.map Prod.fst).Nodup) (hk : key ∉ m.map Prod.fst) :
    ((m.insert key value).map Prod.fst).Nodup := by
  induction m with
  | nil => simp [PluginMap.insert]
  | cons kv rest ih =>
    obtain ⟨k, v⟩ := kv
    simp only [List.map_cons, List.mem_cons, not_or] at hk
    simp only [List.map_cons, List.nodup_cons] at hn
    simp only [PluginMap.insert, hk.1, if_false]
    by_cases h3 : qStringLess key k = true
    · simp only [h3, if_true, List.map_cons, List.nodup_cons, List.mem_cons, not_or]
      exact ⟨⟨hk.1, hk.2⟩, hn.1, hn.2⟩
    · simp only [h3, Bool.false_eq_true, if_false, List.map_cons, List.nodup_cons]
      refine ⟨?_, ih hn.2 hk.2⟩
      rw [mem_keys_insert]
      rintro (h | h)
      · exact hk.1 h.symm
      · exact hn.1 h

theorem loadOne_value (mgr : DesktopMenuPluginManager) (obj : PluginObject) (id : String) :
    (loadOne mgr obj).m_map.value id =
      match mgr.m_map.value id with
      | some v => some v
      | none => (menuPlugins [obj]).find? (fun p => p.name == id) := by
  cases obj with
  | null => simp only [loadOne, menuPlugins, List.find?_nil]; split <;> simp_all
  | other => simp only [loadOne, menuPlugins, List.find?_nil]; split <;> simp_all
  | menu piface =>
    simp only [loadOne, menuPlugins, List.find?_cons, List.find?_nil]
    by_cases hreg : (mgr.m_map.value piface.name).isNone = true
    · simp only [hreg, if_true, value_insert]
      by_cases hid : id = piface.name
      · subst hid
        rw [Option.isNone_iff_eq_none] at hreg
        simp [hreg]
      · have hne : (piface.name == id) = false := by
          simpa using fun he : piface.name = id => hid he.symm
        simp only [hid, if_false, hne]
        split <;> simp_all
    · simp only [hreg, Bool.false_eq_true, if_false]
      by_cases hid : id = piface.name
      · subst hid
        cases hv : mgr.m_map.value piface.name with
        | none => simp [hv] at hreg
        | some v => rfl
      · have hne : (piface.name == id) = false := by
          simpa using fun he : piface.name = id => hid he.symm
        simp only [hne]
        split <;> simp_all

theorem loadOne_keys_nodup (mgr : DesktopMenuPluginManager) (obj : PluginObject)
    (hn : (mgr.m_map.map Prod.fst).Nodup) :
    ((loadOne mgr obj).m_map.map Prod.fst).Nodup := by
  cases obj with
  | null => exact hn
  | other => exact hn
  | menu piface =>
    simp only [loadOne]
    by_cases hreg : (mgr.m_map.value piface.name).isNone = true
    · simp only [hreg, if_true]
      apply keys_insert_nodup _ _ _ hn
      rw [mem_keys_iff]
      rw [Option.isNone_iff_eq_none] at hreg
      simp [hreg]
    · simp only [hreg, Bool.false_eq_true, if_false]
      exact hn

theorem loadPass_value (files : List PluginObject) :
    ∀ (mgr : DesktopMenuPluginManager) (id : String),
      (loadPass mgr files).m_map.value id =
        match mgr.m_map.value id with
        | some v => some v
        | none => (menuPlugins files).find? (fun p => p.name == id) := by
  induction files with
  | nil =>
    intro mgr id
    simp only [loadPass, List.foldl_nil, menuPlugins, List.find?_nil]
    split <;> simp_all
  | cons obj rest ih =>
    intro mgr id
    have h1 := ih (loadOne mgr obj) id
    simp only [loadPass, List.foldl_cons] at h1 ⊢
    rw [h1, loadOne_value]
    cases hv : mgr.m_map.value id with
    | some v => rfl
    | none =>
      cases obj with
      | null => simp [menuPlugins]
      | other => simp [menuPlugins]
      | menu piface =>
        simp only [menuPlugins, List.find?_cons, List.find?_nil]
        by_cases hid : (piface.name == id) = true
        · simp [hid]
        · simp [hid]

theorem loadPass_keys_nodup (files : List PluginObject) :
    ∀ mgr : DesktopMenuPluginManager, (mgr.m_map.map Prod.fst).Nodup →
      ((loadPass mgr files).m_map.map Prod.fst).Nodup := by
  induction files with
  | nil => intro mgr h; exact h
  | cons obj rest ih =>
    intro mgr h
    simp only [loadPass, List.foldl_cons]
    exact ih _ (loadOne_keys_nodup mgr obj h)

/-- Claim C10: after the load pass of `loadAsync` over the loaded objects in scan order,
starting from the empty registry, `getPlugin(id)` is the first menu plugin in that order that reports
`id` (the null pointer when none does), the identifiers listed by `getPluginIds()` are
pairwise distinct and are exactly the identifiers reported by some loaded menu plugin,
and a plugin whose identifier is already registered leaves `m_map` as it is. -/
theorem loadAsync_first_plugin_wins (files : List PluginObject) :
    (∀ id : String, getPlugin (loadAsync DesktopMenuPluginManager.empty files) id
        = (menuPlugins files).find? (fun p => p.name == id))
    ∧ (getPluginIds (loadAsync DesktopMenuPluginManager.empty files)).Nodup
    ∧ (∀ id : String, id ∈ getPluginIds (loadAsync DesktopMenuPluginManager.empty files)
        ↔ ∃ p ∈ menuPlugins files, p.name = id)
    ∧ (∀ (mgr : DesktopMenuPluginManager) (later : MenuPluginInterface),
        (mgr.m_map.value later.name).isSome = true →
        (loadOne mgr (PluginObject.menu later)).m_map = mgr.m_map) := by
  simp only [loadAsync]
  have hval : ∀ id : String, getPlugin (loadPass DesktopMenuPluginManager.empty files) id
      = (menuPlugins files).find? (fun p => p.name == id) := by
    intro id
    simp only [getPlugin]
    rw [loadPass_value]
    simp [DesktopMenuPluginManager.empty, PluginMap.value]
  refine ⟨hval, ?_, ?_, ?_⟩
  · exact loadPass_keys_nodup files _ (by simp [DesktopMenuPluginManager.empty])
  · intro id
    simp only [getPluginIds]
    rw [mem_keys_iff]
    have := hval id
    simp only [getPlugin] at this
    rw [this]
    constructor
    · intro h
      rw [Option.isSome_iff_exists] at h
      obtain ⟨p, hp⟩ := h
      exact ⟨p, List.mem_of_find?_eq_some hp, by simpa using List.find?_some hp⟩
    · rintro ⟨p, hp, rfl⟩
      rw [List.find?_isSome]
      exact ⟨p, hp, by simp⟩
  · intro mgr later h
    simp only [loadOne]
    have : (mgr.m_map.value later.name).isNone = false := by
      rw [Option.isSome_iff_exists] at h
      obtain ⟨v, hv⟩ := h
      simp [hv]
    simp [this]

theorem loadAsync_first_plugin_wins_example :
    getPlugin (loadAsync DesktopMenuPluginManager.empty
        [PluginObject.null, PluginObject.menu ⟨1, "b"⟩, PluginObject.other,
         PluginObject.menu ⟨2, "a"⟩, PluginObject.menu ⟨3, "b"⟩]) "b" = some ⟨1, "b"⟩
    ∧ getPluginIds (loadAsync DesktopMenuPluginManager.empty
        [PluginObject.null, PluginObject.menu ⟨1, "b"⟩, PluginObject.other,
         PluginObject.menu ⟨2, "a"⟩, PluginObject.menu ⟨3, "b"⟩]) = ["a", "b"] :=
  ⟨((loadAsync_first_plugin_wins _).1 "b").trans (by decide), by decide⟩

/-! ## Drops on a destination that is not a directory -/

/-- Claim C11: whenever the destination identifier of a drop is set and names something
that is not a directory, `dropMimeData` returns false and starts no file operation,
whatever the dropped sources and the drop action are. -/
theorem dropMimeData_rejects_non_directory (s : DesktopItemModel) (desktopLocation : String)
    (isDir : String → Bool) (baseResult : Bool) (urls : List String) (action : DropAction)
    (parent : Option Nat) (dest : String)
    (hdest : destDirUri s desktopLocation parent = some dest) (hfile : isDir dest = false) :
    dropMimeData s desktopLocation isDir baseResult urls action parent = ⟨false, []⟩ := by
  simp [dropMimeData, hdest, hfile]

theorem dropMimeData_rejects_non_directory_witness :
    destDirUri readyDesktop "/home/u/Desktop" (some 3) = some "file:///home/u/Desktop/a.txt"
    ∧ (fun uri : String => uri != "file:///home/u/Desktop/a.txt")
        "file:///home/u/Desktop/a.txt" = false
    ∧ dropMimeData readyDesktop "/home/u/Desktop"
        (fun uri : String => uri != "file:///home/u/Desktop/a.txt") true
        ["file:///home/u/Documents/b.txt"] DropAction.MoveAction (some 3) = ⟨false, []⟩ :=
  ⟨by decide, by decide,
   dropMimeData_rejects_non_directory readyDesktop "/home/u/Desktop"
     (fun uri : String => uri != "file:///home/u/Desktop/a.txt") true
     ["file:///home/u/Documents/b.txt"] DropAction.MoveAction (some 3)
     "file:///home/u/Desktop/a.txt" (by decide) (by decide)⟩

theorem dropMimeData_moves_into_directory :
    dropMimeData readyDesktop "/home/u/Desktop"
        (fun uri : String => uri != "file:///home/u/Desktop/a.txt") true
        ["file:///home/u/Documents/b.txt"] DropAction.MoveAction (some 2)
      = ⟨true, [FileOperation.move ["file:///home/u/Documents/b.txt"] "file:///home/u"]⟩ := by
  decide

/-! ## Watchers and the Loading state -/

theorem onNewFileInfoUpdated_monitoring (fuel : Nat) (view : IconView) (s t : DesktopItemModel)
    (uri : String) (h : onNewFileInfoUpdated fuel view s uri = some t) :
    t.monitoring = s.monitoring := by
  unfold onNewFileInfoUpdated at h
  cases hl : locateNewItem fuel view uri with
  | none => simp [hl] at h
  | some calls =>
    simp only [hl, DesktopItemModel.emit, Option.some.injEq] at h
    subst h
    rfl

theorem step_monitoring (homePath : String) (s t : DesktopItemModel) (e : Event)
    (hstep : step homePath s e = some t) :
    t.monitoring = if e.isEnumerateFinished then (true, true, true, true) else s.monitoring := by
  cases e with
  | desktopFileCreated uri =>
    simp only [step, Option.some.injEq] at hstep
    subst hstep
    simp only [Event.isEnumerateFinished, Bool.false_eq_true, if_false]
    unfold onDesktopFileCreated
    split
    · rfl
    · simp only
      split <;> rfl
  | desktopFileDeleted uri =>
    simp only [step, Option.some.injEq] at hstep
    subst hstep
    simp only [onDesktopFileDeleted]
    rw [removeMatching_all]
    rfl
  | desktopFileChanged uri =>
    simp only [step, Option.some.injEq] at hstep
    subst hstep
    simp only [Event.isEnumerateFinished, Bool.false_eq_true, if_false]
    unfold onDesktopFileChanged
    split <;> rfl
  | systemAppFileDeleted uri =>
    simp only [step, Option.some.injEq] at hstep
    subst hstep
    simp only [onSystemAppFileDeleted, onAppFileDeleted, Event.isEnumerateFinished,
      Bool.false_eq_true, if_false]
    split
    · rw [removeMatching_all]; rfl
    · rfl
  | andriodAppFileDeleted uri =>
    simp only [step, Option.some.injEq] at hstep
    subst hstep
    simp only [onAndriodAppFileDeleted, onAppFileDeleted, Event.isEnumerateFinished,
      Bool.false_eq_true, if_false]
    split
    · rw [removeMatching_all]; rfl
    · rfl
  | newFileInfoUpdated uri view fuel =>
    simp only [step] at hstep
    split at hstep
    · have hm := onNewFileInfoUpdated_monitoring _ _ _ _ _ hstep
      rw [hm]; rfl
    · simp at hstep
  | changedInfoUpdated uri =>
    simp only [step] at hstep
    split at hstep
    · simp only [Option.some.injEq] at hstep
      subst hstep; rfl
    · simp at hstep
  | trashFileCreated =>
    simp only [step, Option.some.injEq] at hstep
    subst hstep; rfl
  | trashFileDeleted =>
    simp only [step, Option.some.injEq] at hstep
    subst hstep; rfl
  | trashInfoUpdated =>
    simp only [step] at hstep
    split at hstep
    · simp only [Option.some.injEq] at hstep
      subst hstep; rfl
    · simp at hstep
  | thumbnailFileChanged uri =>
    simp only [step, Option.some.injEq] at hstep
    subst hstep; rfl
  | refresh =>
    simp only [step, Option.some.injEq] at hstep
    subst hstep; rfl
  | enumerateFinished personal children g =>
    simp only [step, Option.some.injEq] at hstep
    subst hstep; rfl
  | insertRows row count =>
    simp only [step, Option.some.injEq] at hstep
    subst hstep; rfl
  | insertRow row =>
    simp only [step, Option.some.injEq] at hstep
    subst hstep; rfl
  | removeRows row count =>
    simp only [step, Option.some.injEq] at hstep
    subst hstep; rfl
  | removeRow row =>
    simp only [step, Option.some.injEq] at hstep
    subst hstep; rfl

theorem run_monitoring (homePath : String) (evs : List Event) :
    ∀ (s t : DesktopItemModel), run homePath s evs = some t →
      t.monitoring
        = if evs.any Event.isEnumerateFinished then (true, true, true, true)
          else s.monitoring := by
  induction evs with
  | nil =>
    intro s t hrun
    simp only [run, Option.some.injEq] at hrun
    subst hrun; simp
  | cons e evs ih =>
    intro s t hrun
    simp only [run] at hrun
    cases hs : step homePath s e with
    | none => simp [hs] at hrun
    | some s1 =>
      simp only [hs] at hrun
      rw [ih s1 t hrun, step_monitoring homePath s s1 e hs, List.any_cons]
      by_cases h1 : e.isEnumerateFinished = true <;>
        by_cases h2 : evs.any Event.isEnumerateFinished = true <;> simp [h1, h2]

/-- Claim C12, as amended: in every run of a freshly constructed model each of the four
watchers (desktop, trash, system applications, local applications) is monitoring exactly
when some `onEnumerateFinished()` has completed earlier in the run. So none of them
monitors during the first load, and all four go on monitoring through every later
`refresh()` and the Loading state it opens. -/
theorem watchers_monitor_since_first_enumeration (homePath : String) (evs : List Event)
    (t : DesktopItemModel) (hrun : run homePath DesktopItemModel.init evs = some t) :
    t.monitoring
      = (evs.any Event.isEnumerateFinished, evs.any Event.isEnumerateFinished,
         evs.any Event.isEnumerateFinished, evs.any Event.isEnumerateFinished) := by
  rw [run_monitoring homePath evs _ t hrun]
  by_cases h : evs.any Event.isEnumerateFinished = true
  · simp [h]
  · have hf : evs.any Event.isEnumerateFinished = false := by simpa using h
    rw [hf]
    rfl

theorem watchers_monitor_since_first_enumeration_witness :
    (run "file:///home/u" DesktopItemModel.init loadEvents).isSome = true
    ∧ ((run "file:///home/u" DesktopItemModel.init loadEvents).getD
          DesktopItemModel.init).monitoring
        = (loadEvents.any Event.isEnumerateFinished, loadEvents.any Event.isEnumerateFinished,
           loadEvents.any Event.isEnumerateFinished,
           loadEvents.any Event.isEnumerateFinished) :=
  ⟨by decide,
   watchers_monitor_since_first_enumeration "file:///home/u" loadEvents _ (by decide)⟩

/-- Counterexample to claim C12 as stated: after a first load, a second `refresh()` puts
the collection in the Loading state while all four watchers are still monitoring. -/
theorem watchers_monitor_while_loading :
    (run "file:///home/u" DesktopItemModel.init
        [Event.refresh,
         Event.enumerateFinished ⟨"file:///home/u"⟩ [] (fun _ => ⟨-1, -1⟩),
         Event.refresh]).map (fun t => (t.isLoading, t.monitoring))
      = some (true, (true, true, true, true)) := by
  decide

/-! ## The pending set of the created slot -/

/-- Claim C14 fails on the code: on `readyDesktop`, whose pending set is empty, a created
event for `a.txt`, which is in the entry sequence, puts `a.txt` in the pending set and
starts no job. The same state is reached for `b.txt` by a created event, the completion
of its job and a second created event: `b.txt` is pending while no job is in flight. The
slot appends to `m_new_file_info_query_queue` before it looks for the entry, and only
the completion of a job calls `removeOne`. -/
theorem created_for_listed_entry_stays_pending :
    readyDesktop.m_new_file_info_query_queue = []
    ∧ readyDesktop.jobs = []
    ∧ "file:///home/u/Desktop/a.txt" ∈ readyDesktop.uris
    ∧ (onDesktopFileCreated readyDesktop
          "file:///home/u/Desktop/a.txt").m_new_file_info_query_queue
        = ["file:///home/u/Desktop/a.txt"]
    ∧ (onDesktopFileCreated readyDesktop "file:///home/u/Desktop/a.txt").jobs = []
    ∧ (run "file:///home/u" readyDesktop
          [Event.desktopFileCreated "file:///home/u/Desktop/b.txt",
           Event.newFileInfoUpdated "file:///home/u/Desktop/b.txt" readyView 20,
           Event.desktopFileCreated "file:///home/u/Desktop/b.txt"]).map
        (fun t => (t.m_new_file_info_query_queue, t.jobs))
      = some (["file:///home/u/Desktop/b.txt"], []) := by
  decide

/-! ## Termination of the position scan -/

theorem int32_of_range (a : Int) (h1 : -2147483648 ≤ a) (h2 : a < 2147483648) :
    int32 a = a := by
  unfold int32; omega

theorem int32_range (a : Int) : -2147483648 ≤ int32 a ∧ int32 a < 2147483648 := by
  unfold int32; omega

theorem tdiv_two_bounds (a : Int) : a - 1 ≤ 2 * Int.tdiv a 2 ∧ 2 * Int.tdiv a 2 ≤ a + 1 := by
  rcases Int.le_total 0 a with h | h
  · rw [Int.tdiv_eq_ediv h (by decide)]; omega
  · have h2 : Int.tdiv a 2 = -((-a) / 2) := by
      have := Int.neg_tdiv (-a) 2
      rw [Int.neg_neg] at this
      rw [this, Int.tdiv_eq_ediv (by omega) (by decide)]
    rw [h2]; omega

theorem reduceTop_mono (gridHeight : Int) :
    ∀ (fuel : Nat) (top r : Int), reduceTop fuel gridHeight top = some r →
      ∀ k, reduceTop (fuel + k) gridHeight top = some r := by
  intro fuel
  induction fuel with
  | zero => intro top r h; simp [reduceTop] at h
  | succ n ih =>
    intro top r h k
    rw [Nat.add_right_comm]
    simp only [reduceTop] at h ⊢
    split
    · rename_i hlt; simpa [hlt] using h
    · rename_i hlt
      simp only [hlt, if_false] at h
      exact ih _ _ h k

theorem scanCandidate_mono (grid : QSize) (viewRect next r : QRect) (fuel : Nat)
    (h : scanCandidate fuel grid viewRect next = some r) (k : Nat) :
    scanCandidate (fuel + k) grid viewRect next = some r := by
  unfold scanCandidate at h ⊢
  simp only at h ⊢
  split
  · rename_i hb
    simp only [hb, if_true, Option.map_eq_some'] at h
    obtain ⟨top, htop, rfl⟩ := h
    rw [reduceTop_mono _ _ _ _ htop k]; rfl
  · rename_i hb
    simpa [hb] using h

theorem scanLoop_mono (rg : QRegion) (grid : QSize) (viewRect : QRect) :
    ∀ (fuel : Nat) (next r : QRect), scanLoop fuel rg grid viewRect next = some r →
      ∀ k, scanLoop (fuel + k) rg grid viewRect next = some r := by
  intro fuel
  induction fuel with
  | zero => intro next r h; simp [scanLoop] at h
  | succ n ih =>
    intro next r h k
    rw [Nat.add_right_comm]
    simp only [scanLoop] at h ⊢
    cases hc : scanCandidate n grid viewRect next with
    | none => simp [hc] at h
    | some next2 =>
      rw [scanCandidate_mono _ _ _ _ _ hc k]
      simp only [hc] at h
      simp only
      split
      · rename_i hin
        simp only [hin, if_true] at h
        exact ih _ _ h k
      · rename_i hin
        simpa [hin] using h

theorem reduceTop_terminates (gridHeight : Int) (hh : 0 < gridHeight) :
    ∀ (n : Nat) (top : Int), top.toNat ≤ n → top < 2147483648 →
      ∃ fuel r, reduceTop fuel gridHeight top = some r := by
  intro n
  induction n with
  | zero =>
    intro top h _
    exact ⟨1, top, by simp only [reduceTop]; rw [if_pos (by omega)]⟩
  | succ n ih =>
    intro top h hr
    by_cases hlt : top < gridHeight
    · exact ⟨1, top, by simp only [reduceTop]; rw [if_pos hlt]⟩
    · have he : int32 (top - gridHeight) = top - gridHeight :=
        int32_of_range _ (by omega) (by omega)
      obtain ⟨fuel, r, hr⟩ := ih (top - gridHeight) (by omega) (by omega)
      exact ⟨fuel + 1, r, by simp only [reduceTop]; rw [if_neg hlt, he]; exact hr⟩

theorem reduceTop_eq_wrapTop (gridHeight : Int) (hh : 0 < gridHeight) :
    ∀ (fuel : Nat) (top r : Int), top < 2147483648 →
      reduceTop fuel gridHeight top = some r → r = wrapTop gridHeight top := by
  intro fuel
  induction fuel with
  | zero => intro top r _ h; simp [reduceTop] at h
  | succ n ih =>
    intro top r hr h
    simp only [reduceTop] at h
    by_cases hlt : top < gridHeight
    · simp only [hlt, if_true, Option.some.injEq] at h
      subst h
      simp [wrapTop, hlt]
    · simp only [hlt, if_false] at h
      have he : int32 (top - gridHeight) = top - gridHeight :=
        int32_of_range _ (by omega) (by omega)
      rw [he] at h
      have h1 := ih _ _ (by omega) h
      rw [h1]
      simp only [wrapTop, hlt, if_false]
      by_cases h2 : top - gridHeight < gridHeight
      · simp only [h2, if_true]
        rw [← Int.emod_sub_cancel top gridHeight]
        exact (Int.emod_eq_of_lt (by omega) h2).symm
      · simp only [h2, if_false]
        exact Int.emod_sub_cancel top gridHeight

theorem wrapTop_bounds (gridHeight top : Int) (hh : 0 < gridHeight) :
    (top < gridHeight ∧ wrapTop gridHeight top = top)
    ∨ (gridHeight ≤ top ∧ 0 ≤ wrapTop gridHeight top ∧ wrapTop gridHeight top < gridHeight) := by
  unfold wrapTop
  by_cases hlt : top < gridHeight
  · left; simp [hlt]
  · right
    simp only [hlt, if_false]
    exact ⟨by omega, Int.emod_nonneg _ (by omega), Int.emod_lt_of_pos _ hh⟩

theorem withinBound_iff (r : QRect) (b : Int) :
    r.withinBound b = true ↔
      (-b ≤ r.x1 ∧ r.x1 ≤ b) ∧ (-b ≤ r.y1 ∧ r.y1 ≤ b) ∧ (-b ≤ r.x2 ∧ r.x2 ≤ b)
        ∧ (-b ≤ r.y2 ∧ r.y2 ≤ b) := by
  simp only [QRect.withinBound, Bool.and_eq_true, decide_eq_true_eq]
  constructor
  · rintro ⟨⟨⟨⟨⟨⟨⟨h1, h2⟩, h3⟩, h4⟩, h5⟩, h6⟩, h7⟩, h8⟩
    exact ⟨⟨h1, h2⟩, ⟨h3, h4⟩, ⟨h5, h6⟩, ⟨h7, h8⟩⟩
  · rintro ⟨⟨h1, h2⟩, ⟨h3, h4⟩, ⟨h5, h6⟩, ⟨h7, h8⟩⟩
    exact ⟨⟨⟨⟨⟨⟨⟨h1, h2⟩, h3⟩, h4⟩, h5⟩, h6⟩, h7⟩, h8⟩

theorem scanCandidate_step (grid : QSize) (viewRect next : QRect)
    (hw : 0 < grid.width) (hh : 0 < grid.height)
    (hwb : grid.width ≤ 268435456) (hhb : grid.height ≤ 268435456)
    (hin : next.withinBound 536870913 = true)
    (hH : -536870912 ≤ next.y2 - next.y1 ∧ next.y2 - next.y1 ≤ 536870912) :
    ∃ fuel next2, scanCandidate fuel grid viewRect next = some next2
      ∧ next2.x2 - next2.x1 = next.x2 - next.x1
      ∧ next2.y2 - next2.y1 = next.y2 - next.y1
      ∧ next2.withinBound 1073741825 = true
      ∧ ((next2.x1 + next2.x2 = next.x1 + next.x2 ∧ next2.y2 = next.y2 + grid.height
            ∧ next2.y2 ≤ viewRect.y2)
          ∨ next2.x1 + next2.x2 = next.x1 + next.x2 + 2 * grid.width) := by
  rw [withinBound_iff] at hin
  obtain ⟨⟨a1, a2⟩, ⟨b1, b2⟩, ⟨c1, c2⟩, ⟨d1, d2⟩⟩ := hin
  have ex1 : int32 (next.x1 + 0) = next.x1 := by
    rw [Int.add_zero]; exact int32_of_range _ (by omega) (by omega)
  have ex2 : int32 (next.x2 + 0) = next.x2 := by
    rw [Int.add_zero]; exact int32_of_range _ (by omega) (by omega)
  have ey1 : int32 (next.y1 + grid.height) = next.y1 + grid.height :=
    int32_of_range _ (by omega) (by omega)
  have ey2 : int32 (next.y2 + grid.height) = next.y2 + grid.height :=
    int32_of_range _ (by omega) (by omega)
  have ht : next.translate 0 grid.height
      = ⟨next.x1, next.y1 + grid.height, next.x2, next.y2 + grid.height⟩ := by
    simp only [QRect.translate, ex1, ex2, ey1, ey2]
  by_cases hb : (next.translate 0 grid.height).bottom > viewRect.bottom
  · obtain ⟨fuel, top, htop⟩ := reduceTop_terminates grid.height hh
      ((next.translate 0 grid.height).y).toNat _ (Nat.le_refl _)
      (by rw [ht]; simp only [QRect.y]; omega)
    have hwt := reduceTop_eq_wrapTop grid.height hh fuel _ top
      (by rw [ht]; simp only [QRect.y]; omega) htop
    rw [ht] at hwt
    simp only [QRect.y] at hwt
    have hbd := wrapTop_bounds grid.height (next.y1 + grid.height) hh
    rw [← hwt] at hbd
    have eax : int32 (next.x1 + grid.width) = next.x1 + grid.width :=
      int32_of_range _ (by omega) (by omega)
    have ex2b : int32 (next.x2 + (next.x1 + grid.width - next.x1)) = next.x2 + grid.width := by
      rw [int32_of_range _ (by omega) (by omega)]; omega
    have ey2b : int32 (next.y2 + grid.height + (top - (next.y1 + grid.height)))
        = top + (next.y2 - next.y1) := by
      rw [int32_of_range _ (by omega) (by omega)]; omega
    refine ⟨fuel, ⟨next.x1 + grid.width, top, next.x2 + grid.width,
      top + (next.y2 - next.y1)⟩, ?_, ?_, ?_, ?_, Or.inr ?_⟩
    · simp only [scanCandidate, hb, if_true, htop, Option.map_some']
      rw [ht]
      simp only [QRect.moveTo, QRect.x, eax, ex2b, ey2b]
    · simp only; omega
    · simp only; omega
    · rw [withinBound_iff]; simp only; omega
    · simp only; omega
  · refine ⟨0, next.translate 0 grid.height, ?_, ?_, ?_, ?_, Or.inl ⟨?_, ?_, ?_⟩⟩
    · simp only [scanCandidate, hb, if_false]
    · rw [ht]
    · rw [ht]; simp only; omega
    · rw [ht, withinBound_iff]; simp only; omega
    · rw [ht]
    · rw [ht]
    · rw [ht] at hb ⊢; simp only [QRect.bottom] at hb ⊢; omega

theorem center_in_region (rg : QRegion) (r : QRect)
    (hrg : ∀ q ∈ rg, q.withinBound 268435456 = true)
    (hr : r.withinBound 1073741825 = true)
    (hW : -536870912 ≤ r.x2 - r.x1 ∧ r.x2 - r.x1 ≤ 536870912)
    (hH : -536870912 ≤ r.y2 - r.y1 ∧ r.y2 - r.y1 ≤ 536870912)
    (h : rg.contains r.center = true) :
    r.withinBound 536870913 = true ∧ r.x1 + r.x2 ≤ 536870913 := by
  simp only [QRegion.contains, List.any_eq_true] at h
  obtain ⟨q, hq, hc⟩ := h
  have hqb := hrg q hq
  rw [withinBound_iff] at hqb hr
  obtain ⟨⟨a1, a2⟩, ⟨b1, b2⟩, ⟨c1, c2⟩, ⟨d1, d2⟩⟩ := hr
  obtain ⟨⟨qa1, qa2⟩, ⟨qb1, qb2⟩, ⟨qc1, qc2⟩, ⟨qd1, qd2⟩⟩ := hqb
  have tx := tdiv_two_bounds (r.x1 + r.x2)
  have ty := tdiv_two_bounds (r.y1 + r.y2)
  have ecx : int32 (Int.tdiv (r.x1 + r.x2) 2) = Int.tdiv (r.x1 + r.x2) 2 :=
    int32_of_range _ (by omega) (by omega)
  have ecy : int32 (Int.tdiv (r.y1 + r.y2) 2) = Int.tdiv (r.y1 + r.y2) 2 :=
    int32_of_range _ (by omega) (by omega)
  simp only [QRect.containsPoint, QRect.center, ecx, ecy, Bool.and_eq_true,
    decide_eq_true_eq] at hc
  obtain ⟨⟨⟨h1, h2⟩, h3⟩, h4⟩ := hc
  refine ⟨?_, by omega⟩
  rw [withinBound_iff]
  omega

theorem scanLoop_of_step (rg : QRegion) (grid : QSize) (viewRect next next2 r : QRect)
    (f1 f2 : Nat) (hc : scanCandidate f1 grid viewRect next = some next2)
    (hin : rg.contains next2.center = true)
    (hr : scanLoop f2 rg grid viewRect next2 = some r) :
    scanLoop (f1 + f2 + 1) rg grid viewRect next = some r := by
  simp only [scanLoop]
  rw [scanCandidate_mono _ _ _ _ _ hc f2]
  simp only [hin, if_true]
  have := scanLoop_mono rg grid viewRect f2 next2 r hr f1
  rwa [Nat.add_comm] at this

theorem scanLoop_of_free (rg : QRegion) (grid : QSize) (viewRect next next2 : QRect)
    (f1 : Nat) (hc : scanCandidate f1 grid viewRect next = some next2)
    (hout : rg.contains next2.center = false) :
    scanLoop (f1 + 1) rg grid viewRect next = some next2 := by
  simp only [scanLoop, hc, hout]
  rfl

theorem scanLoop_terminates_aux (rg : QRegion) (grid : QSize) (viewRect : QRect)
    (hw : 0 < grid.width) (hh : 0 < grid.height)
    (hwb : grid.width ≤ 268435456) (hhb : grid.height ≤ 268435456)
    (hrg : ∀ q ∈ rg, q.withinBound 268435456 = true) :
    ∀ (m n : Nat) (next : QRect),
      next.withinBound 536870913 = true →
      (-536870912 ≤ next.x2 - next.x1 ∧ next.x2 - next.x1 ≤ 536870912) →
      (-536870912 ≤ next.y2 - next.y1 ∧ next.y2 - next.y1 ≤ 536870912) →
      (536870914 - (next.x1 + next.x2)).toNat ≤ m →
      (viewRect.y2 + 1 - next.y2).toNat ≤ n →
      ∃ fuel r, scanLoop fuel rg grid viewRect next = some r
        ∧ rg.contains r.center = false := by
  intro m
  induction m with
  | zero =>
    intro n next hin hW hH hm _
    obtain ⟨f1, next2, hc, e1, e2, hb2, hcase⟩ :=
      scanCandidate_step grid viewRect next hw hh hwb hhb hin hH
    have hout : rg.contains next2.center = false := by
      by_contra hcon
      have := (center_in_region rg next2 hrg hb2 (by omega) (by omega)
        (by simpa using hcon)).2
      rcases hcase with ⟨h1, _, _⟩ | h1 <;> omega
    exact ⟨f1 + 1, next2, scanLoop_of_free _ _ _ _ _ _ hc hout, hout⟩
  | succ m ihm =>
    intro n
    induction n with
    | zero =>
      intro next hin hW hH hm hn
      obtain ⟨f1, next2, hc, e1, e2, hb2, hcase⟩ :=
        scanCandidate_step grid viewRect next hw hh hwb hhb hin hH
      by_cases hcon : rg.contains next2.center = true
      · obtain ⟨hin2, hs⟩ := center_in_region rg next2 hrg hb2 (by omega) (by omega) hcon
        rcases hcase with ⟨h1, h2, h3⟩ | h1
        · omega
        · obtain ⟨f2, r, hr, hout⟩ := ihm _ next2 hin2 (by omega) (by omega) (by omega)
            (Nat.le_refl _)
          exact ⟨f1 + f2 + 1, r, scanLoop_of_step _ _ _ _ _ _ _ _ hc hcon hr, hout⟩
      · have hout : rg.contains next2.center = false := by simpa using hcon
        exact ⟨f1 + 1, next2, scanLoop_of_free _ _ _ _ _ _ hc hout, hout⟩
    | succ n ihn =>
      intro next hin hW hH hm hn
      obtain ⟨f1, next2, hc, e1, e2, hb2, hcase⟩ :=
        scanCandidate_step grid viewRect next hw hh hwb hhb hin hH
      by_cases hcon : rg.contains next2.center = true
      · obtain ⟨hin2, hs⟩ := center_in_region rg next2 hrg hb2 (by omega) (by omega) hcon
        rcases hcase with ⟨h1, h2, h3⟩ | h1
        · obtain ⟨f2, r, hr, hout⟩ := ihn next2 hin2 (by omega) (by omega) (by omega)
            (by omega)
          exact ⟨f1 + f2 + 1, r, scanLoop_of_step _ _ _ _ _ _ _ _ hc hcon hr, hout⟩
        · obtain ⟨f2, r, hr, hout⟩ := ihm _ next2 hin2 (by omega) (by omega) (by omega)
            (Nat.le_refl _)
          exact ⟨f1 + f2 + 1, r, scanLoop_of_step _ _ _ _ _ _ _ _ hc hcon hr, hout⟩
      · have hout : rg.contains next2.center = false := by simpa using hcon
        exact ⟨f1 + 1, next2, scanLoop_of_free _ _ _ _ _ _ hc hout, hout⟩

theorem scanLoop_returns (rg : QRegion) (grid : QSize) (viewRect next : QRect)
    (hw : 0 < grid.width) (hh : 0 < grid.height)
    (hwb : grid.width ≤ smallCoordinate) (hhb : grid.height ≤ smallCoordinate)
    (hnext : next.withinBound smallCoordinate = true)
    (hrg : rg.all (fun q => q.withinBound smallCoordinate) = true) :
    ∃ fuel r, scanLoop fuel rg grid viewRect next = some r
      ∧ rg.contains r.center = false := by
  simp only [smallCoordinate] at hwb hhb hnext hrg
  rw [List.all_eq_true] at hrg
  have hn := hnext
  rw [withinBound_iff] at hn
  obtain ⟨⟨a1, a2⟩, ⟨b1, b2⟩, ⟨c1, c2⟩, ⟨d1, d2⟩⟩ := hn
  exact scanLoop_terminates_aux rg grid viewRect hw hh hwb hhb hrg _ _ next
    (by rw [withinBound_iff]; omega) (by omega) (by omega) (Nat.le_refl _) (Nat.le_refl _)

/-- Claim C8, as amended: for every cell size with positive width and height, every
viewport, every occupied region and every anchor, with the cell sizes and all coordinates
of the region and of the anchor at most 2 to the 28 in absolute value (so that no 32-bit
addition of the loop overflows), the scan loop terminates: with enough fuel it returns a
rectangle, and the centre of that rectangle is not in the occupied region. This holds
also when the region covers the entire viewport. -/
theorem scanLoop_terminates (notEmptyRegion : QRegion) (grid : QSize) (viewRect next : QRect)
    (hw : 0 < grid.width) (hh : 0 < grid.height)
    (hwb : grid.width ≤ smallCoordinate) (hhb : grid.height ≤ smallCoordinate)
    (hnext : next.withinBound smallCoordinate = true)
    (hrg : notEmptyRegion.all (fun q => q.withinBound smallCoordinate) = true) :
    ∃ fuel r, scanLoop fuel notEmptyRegion grid viewRect next = some r
      ∧ notEmptyRegion.contains r.center = false :=
  scanLoop_returns notEmptyRegion grid viewRect next hw hh hwb hhb hnext hrg

theorem scanLoop_terminates_witness :
    (0 : Int) < (⟨100, 100⟩ : QSize).width ∧ (0 : Int) < (⟨100, 100⟩ : QSize).height
    ∧ (⟨100, 100⟩ : QSize).width ≤ smallCoordinate
    ∧ (⟨100, 100⟩ : QSize).height ≤ smallCoordinate
    ∧ QRect.withinBound ⟨0, 0, 99, 99⟩ smallCoordinate = true
    ∧ List.all [(⟨0, 0, 199, 199⟩ : QRect)] (fun q => q.withinBound smallCoordinate) = true
    ∧ ∃ fuel r, scanLoop fuel [⟨0, 0, 199, 199⟩] ⟨100, 100⟩ ⟨0, 0, 199, 199⟩ ⟨0, 0, 99, 99⟩
        = some r ∧ QRegion.contains [⟨0, 0, 199, 199⟩] r.center = false :=
  ⟨by decide, by decide, by decide, by decide, by decide, by decide,
   scanLoop_terminates [⟨0, 0, 199, 199⟩] ⟨100, 100⟩ ⟨0, 0, 199, 199⟩ ⟨0, 0, 99, 99⟩
     (by decide) (by decide) (by decide) (by decide) (by decide) (by decide)⟩

/-- Counterexample to claim C8 as stated: with cells of 100 by 100, a viewport of 200 by
200 and an occupied region that is the whole viewport, the scan from the top left cell
returns after four candidates. -/
theorem scanLoop_returns_on_covered_viewport :
    coversViewport [⟨0, 0, 199, 199⟩] ⟨0, 0, 199, 199⟩
    ∧ scanLoop 7 [⟨0, 0, 199, 199⟩] ⟨100, 100⟩ ⟨0, 0, 199, 199⟩ ⟨0, 0, 99, 99⟩
        = some ⟨200, 0, 299, 99⟩ := by
  refine ⟨?_, by decide⟩
  intro p hp
  simp only [QRegion.contains, List.any_cons, List.any_nil, Bool.or_false]
  exact hp

theorem scanLoop_none_on_full_plane (grid : QSize) (viewRect : QRect) :
    ∀ (fuel : Nat) (next : QRect),
      scanLoop fuel [⟨-2147483648, -2147483648, 2147483647, 2147483647⟩] grid viewRect next
        = none := by
  intro fuel
  induction fuel with
  | zero => intro next; rfl
  | succ n ih =>
    intro next
    simp only [scanLoop]
    cases scanCandidate n grid viewRect next with
    | none => rfl
    | some next2 =>
      have hx := int32_range (Int.tdiv (next2.x1 + next2.x2) 2)
      have hy := int32_range (Int.tdiv (next2.y1 + next2.y2) 2)
      have hin : QRegion.contains [⟨-2147483648, -2147483648, 2147483647, 2147483647⟩]
          next2.center = true := by
        simp only [QRegion.contains, List.any_cons, List.any_nil, Bool.or_false,
          QRect.containsPoint, QRect.center, Bool.and_eq_true, decide_eq_true_eq]
        omega
      simp only [hin, if_true]
      exact ih next2

/-! ## First fit of the position scan -/

theorem scanCandidate_eq_nextCandidate (grid : QSize) (viewRect next r : QRect) (fuel : Nat)
    (hh : 0 < grid.height) (h : scanCandidate fuel grid viewRect next = some r) :
    r = nextCandidate grid viewRect next := by
  unfold scanCandidate at h
  unfold nextCandidate
  simp only at h ⊢
  split
  · rename_i hb
    simp only [hb, if_true, Option.map_eq_some'] at h
    obtain ⟨top, htop, rfl⟩ := h
    have hr : (next.translate 0 grid.height).y < 2147483648 := by
      simp only [QRect.translate, QRect.y]
      exact (int32_range _).2
    rw [reduceTop_eq_wrapTop _ hh _ _ _ hr htop]
  · rename_i hb
    simp only [hb, if_false, Option.some.injEq] at h
    exact h.symm

theorem candidateAt_next (grid : QSize) (viewRect indexRect : QRect) (k : Nat) :
    candidateAt grid viewRect (nextCandidate grid viewRect indexRect) k
      = candidateAt grid viewRect indexRect (k + 1) := by
  induction k with
  | zero => rfl
  | succ k ih =>
    show nextCandidate grid viewRect (candidateAt grid viewRect _ k) = _
    rw [ih]
    rfl

theorem scanLoop_first_fit (rg : QRegion) (grid : QSize) (viewRect : QRect)
    (hh : 0 < grid.height) :
    ∀ (fuel : Nat) (next r : QRect), scanLoop fuel rg grid viewRect next = some r →
      ∃ k, r = candidateAt grid viewRect next (k + 1)
        ∧ rg.contains r.center = false
        ∧ ∀ j, 1 ≤ j → j ≤ k →
            rg.contains (candidateAt grid viewRect next j).center = true := by
  intro fuel
  induction fuel with
  | zero => intro next r h; simp [scanLoop] at h
  | succ n ih =>
    intro next r h
    simp only [scanLoop] at h
    cases hc : scanCandidate n grid viewRect next with
    | none => simp [hc] at h
    | some next2 =>
      have hn2 := scanCandidate_eq_nextCandidate grid viewRect next next2 n hh hc
      simp only [hc] at h
      by_cases hin : rg.contains next2.center = true
      · simp only [hin, if_true] at h
        obtain ⟨k, hk, hfree, hocc⟩ := ih next2 r h
        refine ⟨k + 1, ?_, hfree, ?_⟩
        · rw [hk, hn2, candidateAt_next]
        · intro j h1 h2
          rcases Nat.eq_or_lt_of_le h1 with h3 | h3
          · subst h3
            show rg.contains (nextCandidate grid viewRect next).center = true
            rw [← hn2]; exact hin
          · obtain ⟨i, rfl⟩ : ∃ i, j = i + 1 := ⟨j - 1, by omega⟩
            rw [← candidateAt_next, ← hn2]
            exact hocc i (by omega) (by omega)
      · have hout : rg.contains next2.center = false := by simpa using hin
        simp only [hout, Bool.false_eq_true, if_false, Option.some.injEq] at h
        subst h
        exact ⟨0, by rw [hn2]; rfl, hout, fun j h1 h2 => by omega⟩

theorem locate_returns (rg : QRegion) (grid : QSize) (viewRect indexRect : QRect)
    (hw : 0 < grid.width) (hh : 0 < grid.height)
    (hwb : grid.width ≤ smallCoordinate) (hhb : grid.height ≤ smallCoordinate)
    (hnext : indexRect.withinBound smallCoordinate = true)
    (hrg : rg.all (fun q => q.withinBound smallCoordinate) = true) :
    ∃ fuel r, locate fuel rg grid viewRect indexRect = some r := by
  unfold locate
  by_cases hin : rg.contains indexRect.center = true
  · obtain ⟨fuel, r, hr, _⟩ :=
      scanLoop_returns rg grid viewRect indexRect hw hh hwb hhb hnext hrg
    exact ⟨fuel, r, by simp only [hin, if_true]; exact hr⟩
  · exact ⟨0, indexRect, by simp only [hin, Bool.false_eq_true, if_false]⟩

/-- Claim C13: for a cell size with positive width and height, whatever the guarded scan
of the created-file completion returns is the first rectangle of the scan order (the
anchor, then candidate after candidate, one cell height down and past the bottom of the
view on to the next column) whose centre is not in the occupied region: every rectangle
before it in the order has its centre in the region. With an empty occupied region the
anchor itself is returned. The scan does return when the cell sizes and the coordinates
of the region and of the anchor are at most 2 to the 28 in absolute value. -/
theorem locate_first_fit (notEmptyRegion : QRegion) (grid : QSize) (viewRect indexRect : QRect)
    (hw : 0 < grid.width) (hh : 0 < grid.height) :
    (∀ fuel r, locate fuel notEmptyRegion grid viewRect indexRect = some r →
        ∃ k, r = candidateAt grid viewRect indexRect k
          ∧ notEmptyRegion.contains r.center = false
          ∧ ∀ j, j < k →
              notEmptyRegion.contains (candidateAt grid viewRect indexRect j).center = true)
    ∧ (∀ fuel, locate fuel [] grid viewRect indexRect = some indexRect)
    ∧ (grid.width ≤ smallCoordinate → grid.height ≤ smallCoordinate →
        indexRect.withinBound smallCoordinate = true →
        notEmptyRegion.all (fun q => q.withinBound smallCoordinate) = true →
        ∃ fuel r, locate fuel notEmptyRegion grid viewRect indexRect = some r) := by
  refine ⟨?_, ?_, fun hwb hhb hnext hrg =>
    locate_returns notEmptyRegion grid viewRect indexRect hw hh hwb hhb hnext hrg⟩
  · intro fuel r h
    unfold locate at h
    by_cases hin : notEmptyRegion.contains indexRect.center = true
    · simp only [hin, if_true] at h
      obtain ⟨k, hk, hfree, hocc⟩ :=
        scanLoop_first_fit notEmptyRegion grid viewRect hh fuel indexRect r h
      refine ⟨k + 1, hk, hfree, ?_⟩
      intro j hj
      rcases Nat.eq_zero_or_pos j with h0 | h0
      · subst h0; exact hin
      · exact hocc j h0 (by omega)
    · have hout : notEmptyRegion.contains indexRect.center = false := by simpa using hin
      simp only [hout, Bool.false_eq_true, if_false, Option.some.injEq] at h
      subst h
      exact ⟨0, rfl, hout, fun j hj => by omega⟩
  · intro fuel
    simp [locate, QRegion.contains]

theorem locate_first_fit_witness :
    (0 : Int) < (⟨100, 100⟩ : QSize).width ∧ (0 : Int) < (⟨100, 100⟩ : QSize).height
    ∧ locate 3 [⟨0, 0, 99, 99⟩, ⟨0, 100, 99, 199⟩] ⟨100, 100⟩ ⟨0, 0, 799, 599⟩ ⟨0, 0, 99, 99⟩
        = some ⟨0, 200, 99, 299⟩
    ∧ ∃ k, (⟨0, 200, 99, 299⟩ : QRect)
          = candidateAt ⟨100, 100⟩ ⟨0, 0, 799, 599⟩ ⟨0, 0, 99, 99⟩ k
        ∧ QRegion.contains [⟨0, 0, 99, 99⟩, ⟨0, 100, 99, 199⟩]
            (⟨0, 200, 99, 299⟩ : QRect).center = false
        ∧ ∀ j, j < k →
            QRegion.contains [⟨0, 0, 99, 99⟩, ⟨0, 100, 99, 199⟩]
              (candidateAt ⟨100, 100⟩ ⟨0, 0, 799, 599⟩ ⟨0, 0, 99, 99⟩ j).center = true :=
  ⟨by decide, by decide, by decide,
   (locate_first_fit [⟨0, 0, 99, 99⟩, ⟨0, 100, 99, 199⟩] ⟨100, 100⟩ ⟨0, 0, 799, 599⟩
      ⟨0, 0, 99, 99⟩ (by decide) (by decide)).1 3 ⟨0, 200, 99, 299⟩ (by decide)⟩

theorem scanLoop_wraps_at_32_bits :
    scanLoop 7 [⟨0, 0, 99, 199⟩, ⟨1073741824, 0, 1073741923, 199⟩] ⟨1073741824, 100⟩
        ⟨0, 0, 199, 199⟩ ⟨0, 0, 99, 99⟩
      = some ⟨-2147483648, 0, -2147483549, 99⟩
    ∧ candidateAt ⟨1073741824, 100⟩ ⟨0, 0, 199, 199⟩ ⟨0, 0, 99, 99⟩ 4
      = ⟨-2147483648, 0, -2147483549, 99⟩ := by
  decide

end Peony
